import Mathlib

/-!
Verification development for the Othello engine in `othello.cpp`.

The board is embedded as a 100-element list of cell values (the C++
`int board[100]` array); a read outside the index range `[0, 100)` yields the
OUTER sentinel and a write outside it is dropped (the C++ code never performs
either on the boards the program builds, thanks to the sentinel border).  The
C++ `while`/recursive ray walks are embedded with an explicit fuel parameter
(`walkFuel = 300`); on any board whose reachable ray cells stop at a sentinel
the fuel is never exhausted, matching the C++ behavior.
-/

namespace Othello

/-- Cell constant: empty playable cell. -/
def EMPTY : Int := 0
/-- Cell constant: black disc. -/
def BLACK : Int := 1
/-- Cell constant: white disc. -/
def WHITE : Int := 2
/-- Cell constant: border sentinel. -/
def OUTER : Int := 3

/-- `WinningValue` from the source. -/
def WinningValue : Int := 32767
/-- `LosingValue` from the source. -/
def LosingValue : Int := -32767
/-- `nply` from the source. -/
def nply : Nat := 5

/-- A board: cell contents indexed by the linear index `row*10 + col`.
Embeds `int board[100]`. -/
abbrev Board : Type := List Int

/-- Read one cell (`board[p]`); outside `[0,100)` the sentinel is read. -/
def rd (b : Board) (p : Int) : Int := if p < 0 then OUTER else b.getD p.toNat OUTER

/-- Write one cell (array assignment `board[p] = v`); a write outside the
array is dropped. -/
def wr (b : Board) (p v : Int) : Board := if p < 0 then b else b.set p.toNat v

/-- `OthelloBoard::initBoard`: border sentinels everywhere on the rim, empty
interior, then the four central discs. -/
def initBoard : Board :=
  wr (wr (wr (wr
    ((List.range 100).map fun i =>
      if i < 10 ∨ 90 ≤ i ∨ i % 10 = 0 ∨ i % 10 = 9 then OUTER else EMPTY)
    44 BLACK) 45 WHITE) 54 WHITE) 55 BLACK

/-- `OthelloBoard::opponent`. -/
def opponent (player : Int) : Int := if player = BLACK then WHITE else BLACK


/-- `OthelloBoard::AllDirections`. -/
def AllDirections : List Int := [-11, -10, -9, -1, 1, 9, 10, 11]

/-- Fuel bound for the embedded ray walks; large enough that a walk that
leaves the array (reading the sentinel there) always stops before the fuel
runs out. -/
def walkFuel : Nat := 300

/-- The inner `while(true)` loop of `OthelloBoard::legalMove`: starting from
`pos` (which held the opponent's color), keep stepping by `dir`; report
`true` on reaching the mover's color, `false` on reaching empty or the
border, keep walking otherwise. -/
def legalScan (b : Board) (player dir : Int) : Nat → Int → Bool
  | 0, _ => false
  | fuel + 1, pos =>
    let pos' := pos + dir
    if rd b pos' = player then true
    else if rd b pos' = EMPTY ∨ rd b pos' = OUTER then false
    else legalScan b player dir fuel pos'

/-- `OthelloBoard::legalMove`. -/
def legalMove (b : Board) (move player : Int) : Bool :=
  if rd b move ≠ EMPTY then false
  else AllDirections.any fun dir =>
    rd b (move + dir) = opponent player && legalScan b player dir walkFuel (move + dir)

/-- The 64 playable interior cells in the order the C++ scan loops visit
them (`i = 11..88`, skipping border columns). -/
def interiorCells : List Int :=
  (List.range 100).filterMap fun n =>
    if 11 ≤ n ∧ n ≤ 88 ∧ n % 10 ≠ 0 ∧ n % 10 ≠ 9 then some (n : Int) else none

/-- `OthelloBoard::hasLegalMoves`. -/
def hasLegalMoves (b : Board) (player : Int) : Bool :=
  interiorCells.any fun i => rd b i = EMPTY && legalMove b i player

/-- `OthelloBoard::findBracketingPiece` (0 = no bracketing piece). -/
def findBracketingPiece (b : Board) (player dir : Int) : Nat → Int → Int
  | 0, _ => 0
  | fuel + 1, square =>
    if rd b square = player then square
    else if rd b square = opponent player then
      findBracketingPiece b player dir fuel (square + dir)
    else 0

/-- The flip loop of `OthelloBoard::makeFlips`: `for(pos = start; pos !=
bracketer; pos += dir) board[pos] = player`. -/
def flipLoop (player dir : Int) : Nat → Board → Int → Int → Board
  | 0, b, _, _ => b
  | fuel + 1, b, pos, bracketer =>
    if pos = bracketer then b
    else flipLoop player dir fuel (wr b pos player) (pos + dir) bracketer

/-- `OthelloBoard::makeFlips`. -/
def makeFlips (b : Board) (move player dir : Int) : Board :=
  let bracketer := findBracketingPiece b player dir walkFuel (move + dir)
  if bracketer ≠ 0 then flipLoop player dir walkFuel b (move + dir) bracketer else b

/-- `OthelloBoard::makeMove`. -/
def makeMove (b : Board) (move player : Int) : Board :=
  AllDirections.foldl (fun bb dir => makeFlips bb move player dir) (wr b move player)

/-- `OthelloBoard::UndoInfo`. -/
structure UndoInfo where
  move : Int
  flippedPositions : List Int
deriving Repr, DecidableEq

/-- The record-and-flip loop of `OthelloBoard::makeFlipsAndRecord`. -/
def flipRecordLoop (player dir : Int) : Nat → Board → Int → Int → Board × List Int
  | 0, b, _, _ => (b, [])
  | fuel + 1, b, pos, bracketer =>
    if pos = bracketer then (b, [])
    else
      let r := flipRecordLoop player dir fuel (wr b pos player) (pos + dir) bracketer
      (r.1, pos :: r.2)

/-- `OthelloBoard::makeFlipsAndRecord`. -/
def makeFlipsAndRecord (b : Board) (move player dir : Int) : Board × List Int :=
  let bracketer := findBracketingPiece b player dir walkFuel (move + dir)
  if bracketer ≠ 0 then flipRecordLoop player dir walkFuel b (move + dir) bracketer
  else (b, [])

/-- `OthelloBoard::makeMoveWithUndo`: returns the updated board and the undo
record (move cell plus all flipped cells, in direction order). -/
def makeMoveWithUndo (b : Board) (move player : Int) : Board × UndoInfo :=
  AllDirections.foldl
    (fun st dir =>
      let r := makeFlipsAndRecord st.1 move player dir
      (r.1, { st.2 with flippedPositions := st.2.flippedPositions ++ r.2 }))
    (wr b move player, { move := move, flippedPositions := [] })

/-- `OthelloBoard::unmakeMove`. -/
def unmakeMove (b : Board) (undo : UndoInfo) (player : Int) : Board :=
  undo.flippedPositions.foldl (fun bb pos => wr bb pos (opponent player))
    (wr b undo.move EMPTY)

/-- `OthelloBoard::getBoardArray`: the hashable snapshot of the board. -/
def snapshot (b : Board) : List Int := b

/-! ### Evaluator -/

/-- `OthelloBoard::countPieces`. -/
def countPieces (b : Board) : Int :=
  interiorCells.foldl (fun c i => if rd b i = BLACK ∨ rd b i = WHITE then c + 1 else c) 0

/-- `OthelloBoard::countDiscs`. -/
def countDiscs (b : Board) (player : Int) : Int :=
  interiorCells.foldl (fun c i => if rd b i = player then c + 1 else c) 0

/-- `OthelloBoard::mobility`. -/
def mobility (b : Board) (player : Int) : Int :=
  let playerMoves := interiorCells.foldl
    (fun c m => if legalMove b m player then c + 1 else c) 0
  let opponentMoves := interiorCells.foldl
    (fun c m => if legalMove b m (opponent player) then c + 1 else c) 0
  (playerMoves - opponentMoves) * 10

/-- The four corner cells. -/
def corners : List Int := [11, 18, 81, 88]

/-- `OthelloBoard::cornerControl`. -/
def cornerControl (b : Board) (player : Int) : Int :=
  corners.foldl
    (fun score corner =>
      if rd b corner = player then score + 100
      else if rd b corner = opponent player then score - 100
      else score) 0

/-- The edge cells of `OthelloBoard::edgeControl`. -/
def edgePositions : List Int :=
  [12, 13, 14, 15, 16, 17, 21, 31, 41, 51, 61, 71, 28, 38, 48, 58, 68, 78,
   82, 83, 84, 85, 86, 87]

/-- `OthelloBoard::edgeControl`. -/
def edgeControl (b : Board) (player : Int) : Int :=
  edgePositions.foldl
    (fun score pos =>
      if rd b pos = player then score + 5
      else if rd b pos = opponent player then score - 5
      else score) 0

/-- The `while(board[next]==player) next += dir` walk of
`OthelloBoard::isStableInDirection`, ending with the `board[next]==OUTER`
test. -/
def stableScan (b : Board) (player dir : Int) : Nat → Int → Bool
  | 0, _ => false
  | fuel + 1, next =>
    if rd b next = player then stableScan b player dir fuel (next + dir)
    else rd b next = OUTER

/-- `OthelloBoard::isStableInDirection`. -/
def isStableInDirection (b : Board) (pos player dir : Int) : Bool :=
  stableScan b player dir walkFuel (pos + dir)

/-- `OthelloBoard::isStable`. -/
def isStable (b : Board) (pos player : Int) : Bool :=
  if rd b pos ≠ player then false
  else if pos = 11 ∨ pos = 18 ∨ pos = 81 ∨ pos = 88 then true
  else
    (isStableInDirection b pos player (-1) || isStableInDirection b pos player 1) &&
    (isStableInDirection b pos player (-10) || isStableInDirection b pos player 10) &&
    (isStableInDirection b pos player (-11) || isStableInDirection b pos player 11) &&
    (isStableInDirection b pos player (-9) || isStableInDirection b pos player 9)

/-- `OthelloBoard::stability`. -/
def stability (b : Board) (player : Int) : Int :=
  interiorCells.foldl
    (fun stable pos =>
      if rd b pos = player ∧ isStable b pos player then stable + 10
      else if rd b pos = opponent player ∧ isStable b pos (opponent player) then stable - 10
      else stable) 0

/-- The X-square/corner pairs of `OthelloBoard::dangerousSquares`. -/
def dangerousSpots : List (Int × Int) :=
  [(22, 11), (12, 11), (21, 11), (27, 18), (17, 18), (28, 18),
   (72, 81), (82, 81), (71, 81), (77, 88), (87, 88), (78, 88)]

/-- `OthelloBoard::dangerousSquares`. -/
def dangerousSquares (b : Board) (player : Int) : Int :=
  dangerousSpots.foldl
    (fun penalty spot =>
      if rd b spot.2 ≠ player then
        if rd b spot.1 = player then penalty - 25
        else if rd b spot.1 = opponent player then penalty + 25
        else penalty
      else penalty) 0

/-- `OthelloBoard::parity`. -/
def parity (b : Board) (player : Int) : Int :=
  let emptySquares := 64 - countPieces b
  if emptySquares % 2 = 1 then 3 else -3

/-- `OthelloBoard::advancedEvaluation`. -/
def advancedEvaluation (b : Board) (player : Int) : Int :=
  let totalPieces := countPieces b
  let mobilityScore := mobility b player
  let cornerScore := cornerControl b player
  let edgeScore := edgeControl b player
  let stabilityScore := stability b player
  let dangerScore := dangerousSquares b player
  let parityScore := parity b player
  if totalPieces ≤ 20 then
    mobilityScore * 4 + cornerScore * 3 + dangerScore * 2
  else if totalPieces ≤ 50 then
    mobilityScore * 2 + stabilityScore + cornerScore * 2 + edgeScore + dangerScore
  else
    let discDiff := countDiscs b player - countDiscs b (opponent player)
    discDiff * 3 + cornerScore * 3 + stabilityScore + parityScore

/-- `OthelloBoard::weights` (static positional weight table). -/
def weightsList : List Int :=
  [0, 0, 0, 0, 0, 0, 0, 0, 0, 0,
   0, 120, -20, 20, 5, 5, 20, -20, 120, 0,
   0, -20, -40, -5, -5, -5, -5, -40, -20, 0,
   0, 20, -5, 15, 3, 3, 15, -5, 20, 0,
   0, 5, -5, 3, 3, 3, 3, -5, 5, 0,
   0, 5, -5, 3, 3, 3, 3, -5, 5, 0,
   0, 20, -5, 15, 3, 3, 15, -5, 20, 0,
   0, -20, -40, -5, -5, -5, -5, -40, -20, 0,
   0, 120, -20, 20, 5, 5, 20, -20, 120, 0,
   0, 0, 0, 0, 0, 0, 0, 0, 0, 0]

/-- `OthelloBoard::weights[i]` as a function of the cell index. -/
def weights (i : Int) : Int := weightsList.getD i.toNat 0

/-- The `while(board.board[pos] == board.opponent(player))` run counter of
`countFlipsForMove`; returns the run length and the final position. -/
def runScan (b : Board) (oppc dir : Int) : Nat → Int → Int × Int
  | 0, pos => (0, pos)
  | fuel + 1, pos =>
    if rd b pos = oppc then
      let r := runScan b oppc dir fuel (pos + dir)
      (r.1 + 1, r.2)
    else (0, pos)

/-- `countFlipsForMove` (fast flip counting for move ordering). -/
def countFlipsForMove (b : Board) (move player : Int) : Int :=
  AllDirections.foldl
    (fun flips dir =>
      let pos := move + dir
      if rd b pos ≠ opponent player then flips
      else
        let r := runScan b (opponent player) dir walkFuel pos
        if rd b r.2 = player then flips + r.1 else flips) 0

/-! ### Transposition table -/

/-- `TTEntry::Flag`. -/
inductive TTFlag where
  | EXACT
  | LOWER_BOUND
  | UPPER_BOUND
deriving Repr, DecidableEq

/-- `TTEntry`. -/
structure TTEntry where
  value : Int
  depth : Int
  bestMove : Int
  flag : TTFlag
deriving Repr, DecidableEq

/-- The default-constructed `TTEntry()`. -/
def TTEntry.dflt : TTEntry := ⟨0, 0, -1, .EXACT⟩

/-- `TTKey`: full board snapshot plus side to move. -/
abbrev TTKey : Type := List Int × Int

instance : BEq TTKey := ⟨fun a b => a.1 == b.1 && a.2 == b.2⟩

/-- The transposition table (`std::unordered_map` as an association list with
unique keys). -/
abbrev TT : Type := List (TTKey × TTEntry)

/-- Find the entry for a key. -/
def ttFind (t : TT) (k : TTKey) : Option TTEntry :=
  (t.find? fun p => p.1 == k).map (·.2)

/-- Overwrite the slot of `k` (inserting it if absent). -/
def ttAssign (t : TT) (k : TTKey) (e : TTEntry) : TT :=
  if t.any (fun p => p.1 == k) then
    t.map fun p => if p.1 == k then (k, e) else p
  else t ++ [(k, e)]

/-- `TranspositionTable::store` (depth-preferred replacement; an absent key
reads as the default-constructed slot, as with `operator[]`). -/
def ttStore (t : TT) (k : TTKey) (e : TTEntry) : TT :=
  let slot := (ttFind t k).getD TTEntry.dflt
  if e.depth ≥ slot.depth then ttAssign t k e else t

/-- `TranspositionTable::lookup`.  Result: first component is `some value`
exactly when the C++ function returns `true` with that value; the second
component is the final content of the caller's `ttMove` variable, which the
caller initializes to `-1` and which the lookup overwrites with the stored
best-move hint whenever an entry of sufficient depth exists. -/
def ttLookup (t : TT) (k : TTKey) (depth alpha beta : Int) : Option Int × Int :=
  match ttFind t k with
  | none => (none, -1)
  | some entry =>
    if entry.depth < depth then (none, -1)
    else
      match entry.flag with
      | .EXACT => (some entry.value, entry.bestMove)
      | .LOWER_BOUND =>
          if entry.value ≥ beta then (some entry.value, entry.bestMove)
          else (none, entry.bestMove)
      | .UPPER_BOUND =>
          if entry.value ≤ alpha then (some entry.value, entry.bestMove)
          else (none, entry.bestMove)

/-! ### Search -/

/-- `INT_MIN`, the initial `bestVal`. -/
def INT_MIN : Int := -2147483648

/-- The corner test of the move-ordering comparator. -/
def isCorner (a : Int) : Bool := a = 11 ∨ a = 18 ∨ a = 81 ∨ a = 88

/-- The move-ordering comparator (the lambda passed to `std::sort`):
corners first, then history heuristic, then flip count, then static
weights. -/
def moveLess (b : Board) (hist : Int → Int) (player a c : Int) : Bool :=
  if isCorner a ≠ isCorner c then isCorner a
  else
    let ha := hist a
    let hb := hist c
    if ha ≠ hb then ha > hb
    else
      let fa := countFlipsForMove b a player
      let fb := countFlipsForMove b c player
      if fa ≠ fb then fa > fb
      else weights a > weights c

/-- Insert `x` into a list sorted by the strict comparator `lt`, before the
first element not strictly smaller than `x`. -/
def insertOrdered (lt : Int → Int → Bool) (x : Int) : List Int → List Int
  | [] => [x]
  | y :: ys => if lt y x then y :: insertOrdered lt x ys else x :: y :: ys

/-- Stable insertion sort by the strict comparator `lt`. -/
def sortBy (lt : Int → Int → Bool) : List Int → List Int
  | [] => []
  | x :: xs => insertOrdered lt x (sortBy lt xs)

/-- Sorting the move list with the comparator.  `std::sort` leaves the order
of comparator-equivalent moves unspecified; this embedding resolves those
ties stably (keeping the ascending cell-index generation order), one
admissible outcome. -/
def orderMoves (b : Board) (hist : Int → Int) (player : Int) (moves : List Int) :
    List Int :=
  sortBy (moveLess b hist player) moves

/-- Pointwise update of an integer-indexed table (`historyHeuristic`,
`bestm`). -/
def upd (f : Int → Int) (p v : Int) : Int → Int := fun q => if q = p then v else f q

/-- Mutable search state of `OthelloGame`: the shared board, the
transposition table, the history-heuristic table and the `bestm` array. -/
structure SState where
  board : Board
  table : TT
  history : Int → Int
  bestm : Int → Int

/-- Terminal scoring at a node where neither side can move: disc difference
over all 100 cells, mapped to the win/loss sentinels. -/
def terminalValue (b : Board) (player : Int) : Int :=
  let diff := (List.range 100).foldl
    (fun d i =>
      d + (if rd b (i : Int) = player then 1 else 0) -
        (if rd b (i : Int) = opponent player then 1 else 0)) 0
  if diff > 0 then WinningValue else if diff < 0 then LosingValue else 0

/-- The flag classification of the final `transTable.store` in
`OthelloGame::alphabeta`. -/
def storeFlag (originalAlpha beta bestVal : Int) : TTFlag :=
  if bestVal ≤ originalAlpha then .UPPER_BOUND
  else if bestVal ≥ beta then .LOWER_BOUND
  else .EXACT

/-- The `for(int move : moves)` loop of `OthelloGame::alphabeta`, with the
recursive search on the child positions abstracted as `child`; `cp` is the
child ply (`ply - 1`).  Returns the final `(bestVal, bestMove, state)`. -/
def searchMoves (child : SState → Int → Int → Int → Int × SState) (cp : Nat)
    (player beta : Int) : List Int → SState → Int → Int → Int → Int × Int × SState
  | [], s, bestVal, bestMove, _ => (bestVal, bestMove, s)
  | m :: rest, s, bestVal, bestMove, alpha =>
    let mk := makeMoveWithUndo s.board m player
    let r := child { s with board := mk.1 } (opponent player) (-beta) (-alpha)
    let val := -r.1
    let s1 := { r.2 with board := unmakeMove r.2.board mk.2 player }
    if val > bestVal then
      let st := if val > alpha then
          (val, { s1 with bestm := upd s1.bestm ((cp : Int) + 1) m })
        else (alpha, s1)
      if st.1 ≥ beta then
        (val, m,
          { st.2 with
            history := upd st.2.history m
              (st.2.history m + ((cp : Int) + 1) * ((cp : Int) + 1)) })
      else searchMoves child cp player beta rest st.2 val m st.1
    else searchMoves child cp player beta rest s1 bestVal bestMove alpha

/-- `OthelloGame::alphabeta`, run with the time limit disabled (so
`timeUp()` is `false` and `timeExpired` is never set).  `useTT = false`
replaces the transposition table by a no-op (lookup always misses, store
does nothing), the replacement claim C4 speaks about; `useTT = true` is the
code as written. -/
def alphabeta (useTT : Bool) : Nat → SState → Int → Int → Int → Int × SState
  | ply, s, player, alpha, beta =>
    let originalAlpha := alpha
    let key : TTKey := (snapshot s.board, player)
    let lr := if useTT then ttLookup s.table key (ply : Int) alpha beta else (none, -1)
    let ttMove := lr.2
    match lr.1 with
    | some ttValue =>
      (ttValue,
        if ply ≠ 0 then { s with bestm := upd s.bestm (ply : Int) ttMove } else s)
    | none =>
      match ply with
      | 0 =>
        let evaluation := advancedEvaluation s.board player
        let s :=
          if useTT then { s with table := ttStore s.table key ⟨evaluation, 0, -1, .EXACT⟩ }
          else s
        (evaluation, s)
      | n + 1 =>
        let moves := interiorCells.filter fun i =>
          rd s.board i = EMPTY && legalMove s.board i player
        if moves.isEmpty then
          if hasLegalMoves s.board (opponent player) then
            let r := alphabeta useTT n s (opponent player) (-beta) (-alpha)
            let val := -r.1
            let s := r.2
            let s :=
              if useTT then
                { s with table := ttStore s.table key ⟨val, (n : Int) + 1, -1, .EXACT⟩ }
              else s
            (val, s)
          else
            let val := terminalValue s.board player
            let s :=
              if useTT then
                { s with table := ttStore s.table key ⟨val, (n : Int) + 1, -1, .EXACT⟩ }
              else s
            (val, s)
        else
          let ordered :=
            if ttMove ≠ -1 ∧ ttMove ∈ moves then
              ttMove :: orderMoves s.board s.history player (moves.erase ttMove)
            else orderMoves s.board s.history player moves
          let r := searchMoves (fun s p a c => alphabeta useTT n s p a c) n player beta
            ordered s INT_MIN (-1) alpha
          let bestVal := r.1
          let bestMove := r.2.1
          let s := r.2.2
          let s :=
            if useTT then
              { s with
                table := ttStore s.table key
                  ⟨bestVal, (n : Int) + 1, bestMove, storeFlag originalAlpha beta bestVal⟩ }
            else s
          (bestVal, s)

/-- Plain full-width negamax to a fixed depth: the reference search the
spec's soundness property compares against, with the same static evaluator
at depth 0 and the same pass/terminal rules. -/
def negamaxFW (b : Board) (player : Int) : Nat → Int
  | 0 => advancedEvaluation b player
  | n + 1 =>
    let moves := interiorCells.filter fun i => rd b i = EMPTY && legalMove b i player
    if moves.isEmpty then
      if hasLegalMoves b (opponent player) then -negamaxFW b (opponent player) n
      else terminalValue b player
    else
      moves.foldl (fun acc m => max acc (-negamaxFW (makeMove b m player) (opponent player) n))
        INT_MIN


/-- The search state at the start of a top-level decision: the game board,
a cleared transposition table (`iterativeDeepening` calls
`transTable.clear()`), the engine's initial history table and an empty
best-move array. -/
def mkState (b : Board) : SState := ⟨b, [], fun _ => 0, fun _ => -1⟩

/-- Fail-soft correctness of a bounded search value `R` against the true
value `V` within the window `(a, b)`: exact inside the window, an upper
bound on `V` on a fail-low, a lower bound on a fail-high. -/
def FailSoft (R V a b : Int) : Prop :=
  (a < R ∧ R < b → R = V) ∧ (R ≤ a → V ≤ R) ∧ (b ≤ R → R ≤ V)

/-- A board holding only the border sentinels and an empty interior. -/
def emptyBoard : Board :=
  (List.range 100).map fun i =>
    if i < 10 ∨ 90 ≤ i ∨ i % 10 = 0 ∨ i % 10 = 9 then OUTER else EMPTY

/-- The 0..99 cell indices. -/
def allCells : List Int := (List.range 100).map Int.ofNat

/-- The number of empty interior cells of a board. -/
def emptyInteriorCount (b : Board) : Int :=
  interiorCells.foldl (fun c i => if rd b i = EMPTY then c + 1 else c) 0

/-- A position in which Black has no legal move but White does: White on the
corner 11 and Black beside it on 12. -/
def passBoard : Board := wr (wr emptyBoard 11 WHITE) 12 BLACK

/-- Invariant carried over the eight-direction fold of `makeMoveWithUndo`:
the undo record holds the move cell, every recorded flip originally held the
opponent's color, all untouched cells still hold their original value, and
the move cell and every recorded flip now hold the mover's color. -/
def FoldInv (b : Board) (move player : Int) (st : Board × UndoInfo) : Prop :=
  st.2.move = move ∧
  (∀ q ∈ st.2.flippedPositions, rd b q = opponent player) ∧
  (∀ q, q ≠ move → q ∉ st.2.flippedPositions → rd st.1 q = rd b q) ∧
  rd st.1 move = player ∧
  (∀ q ∈ st.2.flippedPositions, rd st.1 q = player) ∧
  st.1.length = b.length

/-- Every cell of the board (read through `rd`) holds one of the four legal
cell values; stated over the 100 array indices so it is decidable. -/
def CellsOK (b : Board) : Prop :=
  ∀ i ∈ List.range 100,
    b.getD i OUTER = EMPTY ∨ b.getD i OUTER = BLACK ∨ b.getD i OUTER = WHITE ∨
      b.getD i OUTER = OUTER

instance (b : Board) : Decidable (CellsOK b) := by
  unfold CellsOK
  infer_instance

/-- The claim's ray condition: some direction holds a non-empty unbroken run
of the opponent's color starting next to the move cell, immediately followed
by the mover's color. -/
def raySpec (b : Board) (move player : Int) : Prop :=
  ∃ dir ∈ AllDirections, ∃ n : Nat, 1 ≤ n ∧
    (∀ k : Nat, 1 ≤ k → k ≤ n → rd b (move + k * dir) = opponent player) ∧
    rd b (move + (n + 1 : Nat) * dir) = player

/-- The border sentinels of a well-formed board. -/
def Borders (b : Board) : Prop :=
  ∀ i ∈ List.range 100, (i < 11 ∨ 88 < i ∨ i % 10 = 0 ∨ i % 10 = 9) →
    b.getD i OUTER = OUTER

instance (b : Board) : Decidable (Borders b) := by
  unfold Borders
  infer_instance

/-- The run condition of `raySpec` along one fixed direction. -/
def runVia (b : Board) (move player dir : Int) : Prop :=
  ∃ n : Nat, 1 ≤ n ∧
    (∀ k : Nat, 1 ≤ k → k ≤ n → rd b (move + k * dir) = opponent player) ∧
    rd b (move + (n + 1 : Nat) * dir) = player

/-- A well-formed position in which the probed cell 44 is occupied: the flip
list of `makeMoveWithUndo` is non-empty although the cell is not legal,
refuting the unrestricted legality/flip equivalence of C3. -/
def occBoard : Board := wr (wr (wr emptyBoard 44 WHITE) 45 WHITE) 46 BLACK

/-- A transposition table each of whose entries is an exact static
evaluation of its own key: the only kind of entry a search of depth at
most 1 from a cleared table ever stores. -/
def ExactTable (t : TT) : Prop :=
  ∀ k e, ttFind t k = some e →
    e.flag = TTFlag.EXACT ∧ e.value = advancedEvaluation k.1 k.2

/-- A seven-disc position on which the transposition table changes the
full-window score: the same position with the same side to move is reached
once at remaining depth 2 and once, through two extra passes, at remaining
depth 0, and the deeper entry is reused at the shallower node. -/
def cexBoard : Board :=
  wr (wr (wr (wr (wr (wr (wr emptyBoard 11 WHITE) 12 WHITE) 13 BLACK) 14 WHITE)
    26 BLACK) 83 BLACK) 84 WHITE

/-- The table invariant behind the engine's move legality: every stored
best-move hint is either the null move `-1` or a legal move of the entry's
own key (board snapshot and side to move). -/
def BMall (t : TT) : Prop :=
  ∀ k e, ttFind t k = some e →
    e.bestMove = -1 ∨ legalMove k.1 e.bestMove k.2 = true

/-- Fuel for the aspiration-window widening loop of
`OthelloGame::iterativeDeepening` (`for(;;)` in the C++); each step doubles
`delta`, so the window grows past every score the search can return well
within this bound. -/
def aspirationFuel : Nat := 64

/-- The aspiration-window loop of `OthelloGame::iterativeDeepening`, with
the time limit disabled (`timeExpired` never set): each attempt reassigns
`bestm` to all `-1` and searches; a fail-low widens the window down, a
fail-high widens it up, a score inside the window ends the loop.  When the
fuel runs out the embedding stops widening and keeps the last attempt. -/
def aspiration (player : Int) (depth : Nat) :
    Nat → SState → Int → Int → Int → Int × SState
  | fuel, s, alpha, beta, delta =>
    let r := alphabeta true depth { s with bestm := fun _ => -1 } player alpha beta
    match fuel with
    | 0 => r
    | fuel + 1 =>
      if r.1 ≤ alpha then aspiration player depth fuel r.2 (alpha - delta) beta (delta * 2)
      else if r.1 ≥ beta then
        aspiration player depth fuel r.2 alpha (beta + delta) (delta * 2)
      else r

/-- The `for(int depth = 1; depth <= maxDepth; depth++)` loop of
`OthelloGame::iterativeDeepening` over the remaining list of depths, with
the time limit disabled (the remaining-time break and the `timeExpired`
break never fire): each completed depth overwrites `bestMove` with
`bestm[depth]` when that slot was filled, and feeds its score to the next
iteration's aspiration window. -/
def idStep (player : Int) : List Nat → SState → Int → Int → Int × SState
  | [], s, bestMove, _ => (bestMove, s)
  | d :: rest, s, bestMove, lastScore =>
    let r := aspiration player d aspirationFuel s (lastScore - 64) (lastScore + 64) 64
    let bm := if r.2.bestm (d : Int) ≠ -1 then r.2.bestm (d : Int) else bestMove
    idStep player rest r.2 bm r.1

/-- `OthelloGame::iterativeDeepening` with the time limit disabled: clears
the transposition table, then runs the depth loop from 1 to `maxDepth`
starting from `bestMove = -1` and `lastScore = 0`. -/
def iterativeDeepening (b : Board) (hist : Int → Int) (player : Int)
    (maxDepth : Nat) : Int × SState :=
  idStep player (List.range' 1 maxDepth) ⟨b, [], hist, fun _ => -1⟩ (-1) 0

/-- The fallback scan of `OthelloGame::run`:
`for(fallbackMove = 0; fallbackMove < 100; fallbackMove++)` stopping at the
first legal move (`-1` when the side has none anywhere on the board). -/
def firstLegal (b : Board) (player : Int) : Int :=
  match allCells.find? (fun m => legalMove b m player) with
  | some m => m
  | none => -1

/-- The engine branch of `OthelloGame::run`: the move the engine applies —
the result of `iterativeDeepening` when it is not `-1`, otherwise the first
legal move found by the fallback scan. -/
def engineSelect (b : Board) (hist : Int → Int) (player : Int)
    (maxDepth : Nat) : Int :=
  let move := (iterativeDeepening b hist player maxDepth).1
  if move ≠ -1 then move else firstLegal b player

theorem opponent_ne (player : Int) : opponent player ≠ player := by
  unfold opponent BLACK WHITE
  split <;> omega


/-! ### C7: the initial-position scenario -/

/-- C7: on the freshly initialized board, Black's legal cells are exactly
{35, 46, 53, 64}; applying move 35 for Black flips exactly cell 45 (which
held White) from White to Black, yielding Black at {35,44,45,55} and White
at {54}. -/
theorem C7_initial_position :
    allCells.filter (fun i => legalMove initBoard i BLACK) = [35, 46, 53, 64] ∧
    rd initBoard 45 = WHITE ∧
    (makeMoveWithUndo initBoard 35 BLACK).2.flippedPositions = [45] ∧
    allCells.filter (fun i => rd (makeMoveWithUndo initBoard 35 BLACK).1 i = BLACK)
      = [35, 44, 45, 55] ∧
    allCells.filter (fun i => rd (makeMoveWithUndo initBoard 35 BLACK).1 i = WHITE)
      = [54] := by
  decide

/-! ### C9: `makeMove` agrees with `makeMoveWithUndo` -/

theorem flipRecordLoop_fst (player dir : Int) :
    ∀ (fuel : Nat) (b : Board) (pos brk : Int),
      (flipRecordLoop player dir fuel b pos brk).1 = flipLoop player dir fuel b pos brk := by
  intro fuel
  induction fuel with
  | zero => intro b pos brk; rfl
  | succ n ih =>
    intro b pos brk
    simp only [flipRecordLoop, flipLoop]
    split
    · rfl
    · exact ih _ _ _

theorem makeFlipsAndRecord_fst (b : Board) (move player dir : Int) :
    (makeFlipsAndRecord b move player dir).1 = makeFlips b move player dir := by
  simp only [makeFlipsAndRecord, makeFlips]
  split
  · exact flipRecordLoop_fst _ _ _ _ _ _
  · rfl

theorem foldl_flips_fst (move player : Int) :
    ∀ (dirs : List Int) (b : Board) (u : UndoInfo),
      (dirs.foldl
        (fun st dir =>
          let r := makeFlipsAndRecord st.1 move player dir
          (r.1, { st.2 with flippedPositions := st.2.flippedPositions ++ r.2 }))
        (b, u)).1
      = dirs.foldl (fun bb dir => makeFlips bb move player dir) b := by
  intro dirs
  induction dirs with
  | nil => intro b u; rfl
  | cons d ds ih =>
    intro b u
    simp only [List.foldl_cons]
    rw [ih, makeFlipsAndRecord_fst]

theorem makeMoveWithUndo_fst (b : Board) (move player : Int) :
    (makeMoveWithUndo b move player).1 = makeMove b move player := by
  unfold makeMove makeMoveWithUndo
  exact foldl_flips_fst move player AllDirections (wr b move player) _

/-- C9: the plain move application used by the game loop and the
undo-recording application used by the search produce the same board. -/
theorem C9_makeMove_eq_makeMoveWithUndo (b : Board) (move player : Int) :
    makeMove b move player = (makeMoveWithUndo b move player).1 :=
  (makeMoveWithUndo_fst b move player).symm

/-! ### C10: the parity sub-score -/

theorem foldl_count_shift (P : Int → Prop) [DecidablePred P] :
    ∀ (l : List Int) (cc : Int),
      l.foldl (fun c i => if P i then c + 1 else c) cc
        = cc + l.foldl (fun c i => if P i then c + 1 else c) 0 := by
  intro l
  induction l with
  | nil => intro cc; simp
  | cons x xs ih =>
    intro cc
    simp only [List.foldl_cons]
    rw [ih, ih (if P x then 0 + 1 else 0)]
    split <;> omega

theorem count_pieces_empties (b : Board) :
    ∀ (l : List Int), (∀ i ∈ l, rd b i = 0 ∨ rd b i = 1 ∨ rd b i = 2) →
      l.foldl (fun c i => if rd b i = BLACK ∨ rd b i = WHITE then c + 1 else c) 0
        + l.foldl (fun c i => if rd b i = EMPTY then c + 1 else c) 0
      = (l.length : Int) := by
  intro l
  induction l with
  | nil => intro _; simp
  | cons x xs ih =>
    intro h
    have hx := h x (List.mem_cons_self x xs)
    have hih := ih fun i hi => h i (List.mem_cons_of_mem x hi)
    simp only [List.foldl_cons, List.length_cons]
    rw [foldl_count_shift (fun i => rd b i = BLACK ∨ rd b i = WHITE) xs,
        foldl_count_shift (fun i => rd b i = EMPTY) xs]
    unfold EMPTY BLACK WHITE at hih ⊢
    push_cast
    rcases hx with h0 | h0 | h0 <;> rw [h0] <;> norm_num <;> omega

/-- C10: the parity sub-score ignores its player argument and is `3` exactly
when the number of empty interior cells is odd, `-3` when it is even. -/
theorem C10_parity (b : Board) (player : Int)
    (h : ∀ i ∈ interiorCells, rd b i = 0 ∨ rd b i = 1 ∨ rd b i = 2) :
    parity b player = (if emptyInteriorCount b % 2 = 1 then 3 else -3) ∧
    parity b BLACK = parity b WHITE := by
  constructor
  · have hlen : (interiorCells.length : Int) = 64 := by decide
    have hcount : countPieces b + emptyInteriorCount b = (interiorCells.length : Int) :=
      count_pieces_empties b interiorCells h
    rw [hlen] at hcount
    have h64 : 64 - countPieces b = emptyInteriorCount b := by omega
    have hpar : parity b player = (if (64 - countPieces b) % 2 = 1 then 3 else -3) := rfl
    rw [hpar, h64]
  · rfl

/-- Witness for C10 on the initial board: four pieces, sixty empty interior
cells, so the parity term is `-3` for both colors. -/
theorem C10_parity_witness :
    parity initBoard BLACK = (if emptyInteriorCount initBoard % 2 = 1 then 3 else -3) ∧
    parity initBoard BLACK = parity initBoard WHITE := by
  have h := C10_parity initBoard BLACK (by decide)
  exact h

/-! ### C6: transposition-table lookup semantics -/

/-- C6: `lookup` misses when no entry exists or the stored depth is too
shallow; on a depth-sufficient hit an Exact entry always yields its value, a
LowerBound entry yields it only when it clears beta, an UpperBound entry
only when it undercuts alpha, and the stored best-move hint is always
supplied in the depth-sufficient cases. -/
theorem C6_lookup_semantics (t : TT) (k : TTKey) (depth alpha beta : Int) :
    (ttFind t k = none → ttLookup t k depth alpha beta = (none, -1)) ∧
    (∀ e, ttFind t k = some e → e.depth < depth →
      ttLookup t k depth alpha beta = (none, -1)) ∧
    (∀ e, ttFind t k = some e → depth ≤ e.depth →
      (ttLookup t k depth alpha beta).2 = e.bestMove ∧
      (e.flag = .EXACT → ttLookup t k depth alpha beta = (some e.value, e.bestMove)) ∧
      (e.flag = .LOWER_BOUND →
        ttLookup t k depth alpha beta
          = if e.value ≥ beta then (some e.value, e.bestMove) else (none, e.bestMove)) ∧
      (e.flag = .UPPER_BOUND →
        ttLookup t k depth alpha beta
          = if e.value ≤ alpha then (some e.value, e.bestMove) else (none, e.bestMove))) := by
  refine ⟨?_, ?_, ?_⟩
  · intro h; simp [ttLookup, h]
  · intro e he hd
    simp [ttLookup, he, hd]
  · intro e he hd
    have hnd : ¬ e.depth < depth := not_lt.mpr hd
    unfold ttLookup
    rw [he]
    simp only [hnd, if_false]
    refine ⟨?_, ?_, ?_, ?_⟩
    · cases hf : e.flag <;> simp [hf] <;> split <;> rfl
    · intro hf; simp [hf]
    · intro hf; simp [hf]
    · intro hf; simp [hf]

/-- Witness for C6 at a concrete table: a LowerBound entry of depth 3 probed
at depth 2 clears beta = 5 and yields its value together with the hint. -/
theorem C6_lookup_semantics_witness :
    ttLookup [((([] : List Int), BLACK), (⟨7, 3, 42, .LOWER_BOUND⟩ : TTEntry))]
        (([] : List Int), BLACK) 2 0 5 = (some 7, 42) := by
  have h := (C6_lookup_semantics
      [((([] : List Int), BLACK), (⟨7, 3, 42, .LOWER_BOUND⟩ : TTEntry))]
      (([] : List Int), BLACK) 2 0 5).2.2 ⟨7, 3, 42, .LOWER_BOUND⟩ (by decide) (by decide)
  rw [h.2.2.1 rfl]
  norm_num

/-! ### C5: store discipline at node returns -/


/-- Counterexample to C5 as stated: a depth-0 return whose value (0) is at
least beta (-5) is stored as Exact, not LowerBound; and a pass-node return
whose value (-340) is at most the original alpha (-10) is stored as Exact,
not UpperBound. -/
theorem C5_counterexample :
    (ttFind (alphabeta true 0 (mkState initBoard) BLACK (-10) (-5)).2.table
        (initBoard, BLACK) = some ⟨0, 0, -1, .EXACT⟩
      ∧ (0 : Int) ≥ -5 ∧ TTFlag.EXACT ≠ TTFlag.LOWER_BOUND) ∧
    (ttFind (alphabeta true 1 (mkState passBoard) BLACK (-10) (-5)).2.table
        (passBoard, BLACK) = some ⟨-340, 1, -1, .EXACT⟩
      ∧ (-340 : Int) ≤ -10 ∧ TTFlag.EXACT ≠ TTFlag.UPPER_BOUND) := by
  decide

/-- C5 as amended: the three-way window classification is applied only at
returns from the move loop (Upper tested first, then Lower, else Exact);
depth-0, pass and terminal returns always store their value as Exact
whatever the window; transposition-hit returns store nothing. -/
theorem C5_amended_store_discipline :
    (∀ originalAlpha beta v : Int,
      (v ≤ originalAlpha → storeFlag originalAlpha beta v = .UPPER_BOUND) ∧
      (originalAlpha < v → beta ≤ v → storeFlag originalAlpha beta v = .LOWER_BOUND) ∧
      (originalAlpha < v → v < beta → storeFlag originalAlpha beta v = .EXACT)) ∧
    (∀ (s : SState) (p α β : Int),
      ttLookup s.table (s.board, p) ((0 : Nat) : Int) α β = (none, -1) →
      (alphabeta true 0 s p α β).2.table
        = ttStore s.table (s.board, p) ⟨advancedEvaluation s.board p, 0, -1, .EXACT⟩) ∧
    (∀ (s : SState) (p α β tm : Int) (n : Nat),
      ttLookup s.table (s.board, p) (((n + 1 : Nat)) : Int) α β = (none, tm) →
      (interiorCells.filter fun i => rd s.board i = EMPTY && legalMove s.board i p).isEmpty
        = true →
      hasLegalMoves s.board (opponent p) = true →
      (alphabeta true (n + 1) s p α β).2.table
        = ttStore (alphabeta true n s (opponent p) (-β) (-α)).2.table (s.board, p)
            ⟨-(alphabeta true n s (opponent p) (-β) (-α)).1, (n : Int) + 1, -1, .EXACT⟩) ∧
    (∀ (s : SState) (p α β tm : Int) (n : Nat),
      ttLookup s.table (s.board, p) (((n + 1 : Nat)) : Int) α β = (none, tm) →
      (interiorCells.filter fun i => rd s.board i = EMPTY && legalMove s.board i p).isEmpty
        = true →
      hasLegalMoves s.board (opponent p) = false →
      (alphabeta true (n + 1) s p α β).2.table
        = ttStore s.table (s.board, p)
            ⟨terminalValue s.board p, (n : Int) + 1, -1, .EXACT⟩) ∧
    (∀ (s : SState) (p α β v tm : Int) (d : Nat),
      ttLookup s.table (s.board, p) ((d : Nat) : Int) α β = (some v, tm) →
      (alphabeta true d s p α β).2.table = s.table) ∧
    (∀ (s : SState) (p α β tm : Int) (n : Nat),
      ttLookup s.table (s.board, p) (((n + 1 : Nat)) : Int) α β = (none, tm) →
      (interiorCells.filter fun i => rd s.board i = EMPTY && legalMove s.board i p).isEmpty
        = false →
      (let moves := interiorCells.filter fun i =>
          rd s.board i = EMPTY && legalMove s.board i p
       let ordered :=
         if tm ≠ -1 ∧ tm ∈ moves then
           tm :: orderMoves s.board s.history p (moves.erase tm)
         else orderMoves s.board s.history p moves
       let r := searchMoves (fun s q a c => alphabeta true n s q a c) n p β
         ordered s INT_MIN (-1) α
       (alphabeta true (n + 1) s p α β).2.table
         = ttStore r.2.2.table (s.board, p)
             ⟨r.1, (n : Int) + 1, r.2.1, storeFlag α β r.1⟩)) := by
  refine ⟨?_, ?_, ?_, ?_, ?_, ?_⟩
  · intro oa β v
    refine ⟨fun h => ?_, fun h1 h2 => ?_, fun h1 h2 => ?_⟩
    · simp [storeFlag, h]
    · have hn : ¬ v ≤ oa := by omega
      have hb : v ≥ β := h2
      simp [storeFlag, hn, hb]
    · have hn : ¬ v ≤ oa := by omega
      have hb : ¬ v ≥ β := by omega
      simp [storeFlag, hn, hb]
  · intro s p α β hl
    simp only [alphabeta, snapshot, if_true]
    rw [hl]
  · intro s p α β tm n hl hm hpass
    simp only [alphabeta, snapshot, if_true]
    rw [hl]
    simp only [hm, if_true, hpass]
  · intro s p α β tm n hl hm hpass
    simp only [alphabeta, snapshot, if_true]
    rw [hl]
    simp only [hm, if_true, hpass, Bool.false_eq_true, if_false]
  · intro s p α β v tm d hl
    cases d <;>
      (simp only [alphabeta, snapshot, if_true]
       rw [hl]
       split
       · split <;> rfl
       · simp_all)
  · intro s p α β tm n hl hm
    simp only [alphabeta, snapshot, if_true]
    rw [hl]
    simp only [hm, Bool.false_eq_true, if_false]

/-- Witness for the amended C5 at a concrete input: the depth-0 search on
the initial board stores its evaluation as Exact. -/
theorem C5_amended_store_discipline_witness :
    (alphabeta true 0 (mkState initBoard) BLACK (-10) (-5)).2.table
      = ttStore (mkState initBoard).table ((mkState initBoard).board, BLACK)
          ⟨advancedEvaluation (mkState initBoard).board BLACK, 0, -1, .EXACT⟩ :=
  C5_amended_store_discipline.2.1 (mkState initBoard) BLACK (-10) (-5) (by decide)


/-! ### C2: the apply/unapply round trip -/

theorem opponent_vals (player : Int) :
    opponent player = BLACK ∨ opponent player = WHITE := by
  unfold opponent
  split
  · right; rfl
  · left; rfl

theorem length_wr (b : Board) (p v : Int) : (wr b p v).length = b.length := by
  unfold wr
  split
  · rfl
  · exact List.length_set b p.toNat v

/-- A cell that does not read as the sentinel is a genuine array index. -/
theorem rd_range (b : Board) (q : Int) (h : rd b q ≠ OUTER) :
    0 ≤ q ∧ q.toNat < b.length := by
  unfold rd at h
  by_cases hq : q < 0
  · simp [hq] at h
  · constructor
    · omega
    · by_cases hl : q.toNat < b.length
      · exact hl
      · rw [if_neg hq, List.getD_eq_default _ _ (by omega)] at h
        simp at h

theorem rd_wr_eq (b : Board) (p v : Int) (hp : 0 ≤ p) (hl : p.toNat < b.length) :
    rd (wr b p v) p = v := by
  unfold rd wr
  rw [if_neg (by omega), if_neg (by omega),
    List.getD_eq_getElem _ _ (by simpa using hl)]
  simp

theorem rd_wr_ne (b : Board) (p v q : Int) (h : q ≠ p) : rd (wr b p v) q = rd b q := by
  unfold wr
  by_cases hp : p < 0
  · rw [if_pos hp]
  · rw [if_neg hp]
    unfold rd
    by_cases hq : q < 0
    · rw [if_pos hq, if_pos hq]
    · rw [if_neg hq, if_neg hq]
      have htn : p.toNat ≠ q.toNat := by omega
      unfold List.getD
      rw [show (List.set b p.toNat v).get? q.toNat = b.get? q.toNat from
        List.get?_set_ne _ _ htn]

theorem opponent_ne_OUTER (player : Int) : opponent player ≠ OUTER := by
  rcases opponent_vals player with h | h <;> rw [h] <;> decide

/-- A successful `findBracketingPiece` walk certifies an opponent run from
the start cell up to a bracketing cell of the mover's color. -/
theorem fbp_spec (b : Board) (player dir : Int) :
    ∀ (fuel : Nat) (sq br : Int), findBracketingPiece b player dir fuel sq = br →
      br ≠ 0 →
      ∃ k : Nat, k < fuel ∧ br = sq + k * dir ∧
        (∀ j : Nat, j < k → rd b (sq + j * dir) = opponent player) ∧
        rd b br = player := by
  intro fuel
  induction fuel with
  | zero =>
    intro sq br h hbr
    simp only [findBracketingPiece] at h
    exact absurd h.symm hbr
  | succ f ih =>
    intro sq br h hbr
    simp only [findBracketingPiece] at h
    by_cases h1 : rd b sq = player
    · rw [if_pos h1] at h
      refine ⟨0, by omega, ?_, ?_, ?_⟩
      · push_cast
        omega
      · intro j hj
        omega
      · rw [← h]
        exact h1
    · rw [if_neg h1] at h
      by_cases h2 : rd b sq = opponent player
      · rw [if_pos h2] at h
        obtain ⟨k, hk, hbrk, hrun, hp⟩ := ih (sq + dir) br h hbr
        refine ⟨k + 1, by omega, ?_, ?_, hp⟩
        · rw [hbrk]
          push_cast
          ring
        · intro j hj
          cases j with
          | zero => simpa using h2
          | succ j2 =>
            have hj2 := hrun j2 (by omega)
            have harith : sq + dir + (j2 : Int) * dir = sq + ((j2 : Nat) + 1 : Nat) * dir := by
              push_cast
              ring
            rw [harith] at hj2
            exact hj2
      · rw [if_neg h2] at h
        exact absurd h.symm hbr

/-- Properties of the record-and-flip loop along a certified opponent run:
every recorded cell held the opponent's color, every recorded cell now holds
the mover's color, all other cells are untouched, and the length is kept. -/
theorem flipRecordLoop_spec (player dir : Int) (hdir : dir ≠ 0) :
    ∀ (k : Nat), ∀ (fuel : Nat) (b : Board) (pos br : Int), k < fuel →
      br = pos + k * dir →
      (∀ j : Nat, j < k → rd b (pos + j * dir) = opponent player) →
      rd b br = player →
      (∀ q ∈ (flipRecordLoop player dir fuel b pos br).2, rd b q = opponent player) ∧
      (∀ q, q ∉ (flipRecordLoop player dir fuel b pos br).2 →
        rd (flipRecordLoop player dir fuel b pos br).1 q = rd b q) ∧
      (∀ q ∈ (flipRecordLoop player dir fuel b pos br).2,
        rd (flipRecordLoop player dir fuel b pos br).1 q = player) ∧
      (flipRecordLoop player dir fuel b pos br).1.length = b.length := by
  intro k
  induction k with
  | zero =>
    intro fuel b pos br hfuel hbr _ _
    obtain ⟨f, rfl⟩ : ∃ f, fuel = f + 1 := ⟨fuel - 1, by omega⟩
    have hpos : pos = br := by
      push_cast at hbr
      omega
    simp only [flipRecordLoop, if_pos hpos]
    simp
  | succ k ih =>
    intro fuel b pos br hfuel hbr hrun hbrv
    obtain ⟨f, rfl⟩ : ∃ f, fuel = f + 1 := ⟨fuel - 1, by omega⟩
    push_cast at hbr
    have hX : ((k : Int) + 1) * dir ≠ 0 := by
      intro hz
      rcases mul_eq_zero.mp hz with hz1 | hz2
      · omega
      · exact hdir hz2
    have hppos : pos ≠ br := by
      intro he
      exact hX (by linarith)
    have hpos0 : rd b pos = opponent player := by
      have h0 := hrun 0 (by omega)
      simpa using h0
    have hrange := rd_range b pos (by rw [hpos0]; exact opponent_ne_OUTER player)
    have hbne : rd (wr b pos player) br = player := by
      rw [rd_wr_ne _ _ _ _ (Ne.symm hppos)]
      exact hbrv
    have hrun2 : ∀ j : Nat, j < k →
        rd (wr b pos player) (pos + dir + j * dir) = opponent player := by
      intro j hj
      have hne : pos + dir + (j : Int) * dir ≠ pos := by
        intro he
        have hexp : ((j : Int) + 1) * dir = (j : Int) * dir + dir := by ring
        have h0 : ((j : Int) + 1) * dir = 0 := by
          rw [hexp]
          linarith
        rcases mul_eq_zero.mp h0 with hz1 | hz2
        · omega
        · exact hdir hz2
      rw [rd_wr_ne _ _ _ _ hne]
      have hj1 := hrun (j + 1) (by omega)
      have harith : pos + ((j : Nat) + 1 : Nat) * dir = pos + dir + (j : Int) * dir := by
        push_cast
        ring
      rw [harith] at hj1
      exact hj1
    have hbr2 : br = pos + dir + (k : Int) * dir := by
      rw [hbr]
      ring
    obtain ⟨ih1, ih2, ih3, ih4⟩ :=
      ih f (wr b pos player) (pos + dir) br (by omega) hbr2 hrun2 hbne
    simp only [flipRecordLoop, if_neg hppos]
    have hposval : rd (wr b pos player) pos = player :=
      rd_wr_eq b pos player hrange.1 hrange.2
    have hposnotin :
        pos ∉ (flipRecordLoop player dir f (wr b pos player) (pos + dir) br).2 := by
      intro hmem
      have hc := ih1 pos hmem
      rw [hposval] at hc
      exact opponent_ne player hc.symm
    refine ⟨?_, ?_, ?_, ?_⟩
    · intro q hq
      rcases List.mem_cons.mp hq with rfl | hq2
      · exact hpos0
      · have hqop := ih1 q hq2
        have hqne : q ≠ pos := by
          intro he
          rw [he, hposval] at hqop
          exact opponent_ne player hqop.symm
        rw [rd_wr_ne _ _ _ _ hqne] at hqop
        exact hqop
    · intro q hq
      have hqne : q ≠ pos := fun he => hq (he ▸ List.mem_cons_self _ _)
      have hqnot : q ∉ (flipRecordLoop player dir f (wr b pos player) (pos + dir) br).2 :=
        fun hm => hq (List.mem_cons_of_mem _ hm)
      rw [ih2 q hqnot, rd_wr_ne _ _ _ _ hqne]
    · intro q hq
      rcases List.mem_cons.mp hq with rfl | hq2
      · rw [ih2 q hposnotin]
        exact hposval
      · exact ih3 q hq2
    · rw [ih4, length_wr]

/-- Per-direction flip properties of `makeFlipsAndRecord`. -/
theorem makeFlipsAndRecord_spec (b : Board) (move player dir : Int) (hdir : dir ≠ 0) :
    (∀ q ∈ (makeFlipsAndRecord b move player dir).2, rd b q = opponent player) ∧
    (∀ q, q ∉ (makeFlipsAndRecord b move player dir).2 →
      rd (makeFlipsAndRecord b move player dir).1 q = rd b q) ∧
    (∀ q ∈ (makeFlipsAndRecord b move player dir).2,
      rd (makeFlipsAndRecord b move player dir).1 q = player) ∧
    (makeFlipsAndRecord b move player dir).1.length = b.length := by
  unfold makeFlipsAndRecord
  by_cases hbr : findBracketingPiece b player dir walkFuel (move + dir) ≠ 0
  · obtain ⟨k, hk, hbrk, hrun, hp⟩ :=
      fbp_spec b player dir walkFuel (move + dir)
        (findBracketingPiece b player dir walkFuel (move + dir)) rfl hbr
    rw [if_pos hbr]
    exact flipRecordLoop_spec player dir hdir k walkFuel b (move + dir) _ hk hbrk hrun hp
  · rw [if_neg hbr]
    refine ⟨?_, ?_, ?_, rfl⟩
    · intro q hq
      simp at hq
    · intro q hq
      rfl
    · intro q hq
      simp at hq


theorem foldInv_step (b : Board) (move player dir : Int) (hdir : dir ≠ 0)
    (st : Board × UndoInfo) (h : FoldInv b move player st) :
    FoldInv b move player
      (let r := makeFlipsAndRecord st.1 move player dir
       (r.1, { st.2 with flippedPositions := st.2.flippedPositions ++ r.2 })) := by
  obtain ⟨hmv, horig, huntouched, hmvval, hflipval, hlen⟩ := h
  obtain ⟨s1, s2, s3, s4⟩ := makeFlipsAndRecord_spec st.1 move player dir hdir
  have hnewnotold : ∀ q ∈ (makeFlipsAndRecord st.1 move player dir).2,
      q ≠ move ∧ q ∉ st.2.flippedPositions := by
    intro q hq
    have hcur := s1 q hq
    constructor
    · intro he
      rw [he, hmvval] at hcur
      exact opponent_ne player hcur.symm
    · intro hold
      rw [hflipval q hold] at hcur
      exact opponent_ne player hcur.symm
  refine ⟨hmv, ?_, ?_, ?_, ?_, ?_⟩
  · intro q hq
    rcases List.mem_append.mp hq with hq1 | hq2
    · exact horig q hq1
    · obtain ⟨hne, hnold⟩ := hnewnotold q hq2
      rw [← huntouched q hne hnold]
      exact s1 q hq2
  · intro q hne hq
    have hq1 : q ∉ st.2.flippedPositions := fun hm =>
      hq (List.mem_append.mpr (Or.inl hm))
    have hq2 : q ∉ (makeFlipsAndRecord st.1 move player dir).2 := fun hm =>
      hq (List.mem_append.mpr (Or.inr hm))
    rw [s2 q hq2]
    exact huntouched q hne hq1
  · have hmnot : move ∉ (makeFlipsAndRecord st.1 move player dir).2 := by
      intro hm
      exact (hnewnotold move hm).1 rfl
    rw [s2 move hmnot]
    exact hmvval
  · intro q hq
    rcases List.mem_append.mp hq with hq1 | hq2
    · have hnot : q ∉ (makeFlipsAndRecord st.1 move player dir).2 := by
        intro hm
        exact (hnewnotold q hm).2 hq1
      rw [s2 q hnot]
      exact hflipval q hq1
    · exact s3 q hq2
  · rw [s4]
    exact hlen

theorem foldInv_fold (b : Board) (move player : Int) :
    ∀ (dirs : List Int), (∀ d ∈ dirs, d ≠ 0) → ∀ st, FoldInv b move player st →
      FoldInv b move player
        (dirs.foldl
          (fun st dir =>
            let r := makeFlipsAndRecord st.1 move player dir
            (r.1, { st.2 with flippedPositions := st.2.flippedPositions ++ r.2 }))
          st) := by
  intro dirs
  induction dirs with
  | nil => intro _ st h; exact h
  | cons d ds ih =>
    intro hd st h
    simp only [List.foldl_cons]
    exact ih (fun x hx => hd x (List.mem_cons_of_mem d hx)) _
      (foldInv_step b move player d (hd d (List.mem_cons_self d ds)) st h)

theorem makeMoveWithUndo_spec (b : Board) (move player : Int)
    (hmv : rd b move = EMPTY) :
    FoldInv b move player (makeMoveWithUndo b move player) := by
  have hrange := rd_range b move (by rw [hmv]; decide)
  have hinit : FoldInv b move player
      (wr b move player, { move := move, flippedPositions := [] }) := by
    refine ⟨rfl, ?_, ?_, ?_, ?_, ?_⟩
    · intro q hq
      simp at hq
    · intro q hne _
      exact rd_wr_ne b move player q hne
    · exact rd_wr_eq b move player hrange.1 hrange.2
    · intro q hq
      simp at hq
    · exact length_wr b move player
  exact foldInv_fold b move player AllDirections (by decide) _ hinit

theorem foldl_wr_length (c : Int) :
    ∀ (l : List Int) (b0 : Board),
      (l.foldl (fun bb pos => wr bb pos c) b0).length = b0.length := by
  intro l
  induction l with
  | nil => intro b0; rfl
  | cons x xs ih =>
    intro b0
    simp only [List.foldl_cons]
    rw [ih, length_wr]

theorem foldl_wr_notmem (c : Int) :
    ∀ (l : List Int) (b0 : Board) (q : Int), q ∉ l →
      rd (l.foldl (fun bb pos => wr bb pos c) b0) q = rd b0 q := by
  intro l
  induction l with
  | nil => intro b0 q _; rfl
  | cons x xs ih =>
    intro b0 q hq
    simp only [List.foldl_cons]
    have hqx : q ≠ x := by
      intro he
      exact hq (he ▸ List.mem_cons_self x xs)
    rw [ih _ _ (fun hm => hq (List.mem_cons_of_mem _ hm)), rd_wr_ne _ _ _ _ hqx]

theorem foldl_wr_mem (c : Int) :
    ∀ (l : List Int) (b0 : Board) (q : Int), q ∈ l →
      0 ≤ q → q.toNat < b0.length →
      rd (l.foldl (fun bb pos => wr bb pos c) b0) q = c := by
  intro l
  induction l with
  | nil => intro b0 q hq _ _; simp at hq
  | cons x xs ih =>
    intro b0 q hq h0 hl
    simp only [List.foldl_cons]
    by_cases hmem : q ∈ xs
    · exact ih _ q hmem h0 (by rw [length_wr]; exact hl)
    · have hqx : q = x := by
        rcases List.mem_cons.mp hq with he | hm
        · exact he
        · exact absurd hm hmem
      rw [foldl_wr_notmem c xs _ q hmem, hqx, rd_wr_eq _ _ _ (hqx ▸ h0) (hqx ▸ hl)]

/-- Cell-for-cell equal boards of equal length are equal. -/
theorem board_ext (b1 b2 : Board) (hlen : b1.length = b2.length)
    (h : ∀ q : Int, rd b1 q = rd b2 q) : b1 = b2 := by
  apply List.ext_getElem hlen
  intro i h1 h2
  have hi := h (i : Int)
  unfold rd at hi
  rw [if_neg (by omega), if_neg (by omega)] at hi
  have ht : ((i : Int)).toNat = i := rfl
  rw [ht] at hi
  rw [List.getD_eq_getElem _ _ h1, List.getD_eq_getElem _ _ h2] at hi
  exact hi

/-- Applying a legal move with `makeMoveWithUndo` and then calling
`unmakeMove` with the returned record and the same color restores the
position exactly, cell for cell. -/
theorem unmake_roundtrip (b : Board) (move player : Int)
    (h : legalMove b move player = true) :
    unmakeMove (makeMoveWithUndo b move player).1
      (makeMoveWithUndo b move player).2 player = b := by
  have hmv : rd b move = EMPTY := by
    unfold legalMove at h
    by_cases he : rd b move ≠ EMPTY
    · rw [if_pos he] at h
      exact absurd h (by simp)
    · omega
  obtain ⟨hmove, horig, huntouched, hmvval, hflipval, hlen⟩ :=
    makeMoveWithUndo_spec b move player hmv
  have hrange := rd_range b move (by rw [hmv]; decide)
  set b1 := (makeMoveWithUndo b move player).1 with hb1
  set u := (makeMoveWithUndo b move player).2 with hu
  have hmovenotin : move ∉ u.flippedPositions := by
    intro hm
    have := horig move hm
    rw [hmv] at this
    rcases opponent_vals player with hv | hv <;> rw [hv] at this <;> simp [EMPTY, BLACK, WHITE] at this
  unfold unmakeMove
  rw [hmove]
  apply board_ext
  · rw [foldl_wr_length, length_wr]
    exact hlen
  · intro q
    by_cases hqm : q = move
    · rw [hqm, foldl_wr_notmem _ _ _ _ hmovenotin,
        rd_wr_eq _ _ _ hrange.1 (by rw [hlen]; exact hrange.2), hmv]
    · by_cases hqf : q ∈ u.flippedPositions
      · have hq := horig q hqf
        have hqrange := rd_range b q (by rw [hq]; exact opponent_ne_OUTER player)
        rw [foldl_wr_mem _ _ _ _ hqf hqrange.1
          (by rw [length_wr, hlen]; exact hqrange.2), hq]
      · rw [foldl_wr_notmem _ _ _ _ hqf, rd_wr_ne _ _ _ _ hqm]
        exact huntouched q hqm hqf

/-- C2: applying a legal move with undo recording and then unmaking it
restores the original board exactly. -/
theorem C2_roundtrip (b : Board) (move player : Int)
    (h : legalMove b move player = true) :
    unmakeMove (makeMoveWithUndo b move player).1
      (makeMoveWithUndo b move player).2 player = b :=
  unmake_roundtrip b move player h

/-- Witness for C2: the round trip at the initial position with Black's
legal move 35. -/
theorem C2_roundtrip_witness :
    legalMove initBoard 35 BLACK = true ∧
    unmakeMove (makeMoveWithUndo initBoard 35 BLACK).1
      (makeMoveWithUndo initBoard 35 BLACK).2 BLACK = initBoard :=
  ⟨by decide, C2_roundtrip initBoard 35 BLACK (by decide)⟩


/-! ### C3: legality, ray runs and the flip list -/



theorem rd_cases (b : Board) (hlen : b.length = 100) (hc : CellsOK b) (q : Int) :
    rd b q = EMPTY ∨ rd b q = BLACK ∨ rd b q = WHITE ∨ rd b q = OUTER := by
  unfold rd
  by_cases hq : q < 0
  · rw [if_pos hq]
    right; right; right; rfl
  · rw [if_neg hq]
    by_cases hr : q.toNat < 100
    · exact hc q.toNat (List.mem_range.mpr hr)
    · rw [List.getD_eq_default _ _ (by omega)]
      right; right; right; rfl


theorem dirs_nonzero : ∀ d ∈ AllDirections, d ≠ 0 := by decide

theorem other_color (v player : Int)
    (hv : v = EMPTY ∨ v = BLACK ∨ v = WHITE ∨ v = OUTER)
    (hp : player = BLACK ∨ player = WHITE)
    (h1 : v ≠ player) (h2 : v ≠ EMPTY) (h3 : v ≠ OUTER) : v = opponent player := by
  rcases hp with hp | hp <;> subst hp <;>
    rcases hv with h | h | h | h <;>
      first
      | exact absurd h h2
      | exact absurd h h1
      | exact absurd h h3
      | (rw [h]; decide)

/-- A successful legality scan certifies an opponent run ending at the
mover's color. -/
theorem legalScan_success (b : Board) (player dir : Int) (hlen : b.length = 100)
    (hc : CellsOK b) (hp : player = BLACK ∨ player = WHITE) :
    ∀ (fuel : Nat) (pos : Int), legalScan b player dir fuel pos = true →
      ∃ n : Nat, 1 ≤ n ∧
        (∀ k : Nat, 1 ≤ k → k < n → rd b (pos + k * dir) = opponent player) ∧
        rd b (pos + (n : Nat) * dir) = player := by
  intro fuel
  induction fuel with
  | zero =>
    intro pos h
    simp [legalScan] at h
  | succ f ih =>
    intro pos h
    simp only [legalScan] at h
    by_cases h1 : rd b (pos + dir) = player
    · refine ⟨1, le_refl 1, ?_, ?_⟩
      · intro k hk1 hk2
        omega
      · have harith : pos + ((1 : Nat) : Int) * dir = pos + dir := by push_cast; ring
        rw [harith]
        exact h1
    · rw [if_neg h1] at h
      by_cases h2 : rd b (pos + dir) = EMPTY ∨ rd b (pos + dir) = OUTER
      · rw [if_pos h2] at h
        simp at h
      · rw [if_neg h2] at h
        push_neg at h2
        have hopp : rd b (pos + dir) = opponent player :=
          other_color _ player (rd_cases b hlen hc _) hp h1 h2.1 h2.2
        obtain ⟨n, hn1, hrun, hplay⟩ := ih (pos + dir) h
        refine ⟨n + 1, by omega, ?_, ?_⟩
        · intro k hk1 hk2
          cases k with
          | zero => omega
          | succ k2 =>
            cases k2 with
            | zero =>
              have harith : pos + ((1 : Nat) : Int) * dir = pos + dir := by
                push_cast; ring
              rw [harith]
              exact hopp
            | succ k3 =>
              have hr := hrun (k3 + 1) (by omega) (by omega)
              have harith : pos + dir + ((k3 + 1 : Nat) : Int) * dir
                  = pos + ((k3 + 1 + 1 : Nat) : Int) * dir := by
                push_cast; ring
              rw [harith] at hr
              exact hr
        · have harith : pos + dir + ((n : Nat) : Int) * dir
              = pos + ((n + 1 : Nat) : Int) * dir := by
            push_cast; ring
          rw [harith] at hplay
          exact hplay

/-- Conversely, an opponent run ending at the mover's color makes the
legality scan succeed, given enough fuel. -/
theorem legalScan_of_run (b : Board) (player dir : Int) :
    ∀ (n : Nat), ∀ (fuel : Nat) (pos : Int), 1 ≤ n → n ≤ fuel →
      (∀ k : Nat, 1 ≤ k → k < n → rd b (pos + k * dir) = opponent player) →
      rd b (pos + (n : Nat) * dir) = player →
      legalScan b player dir fuel pos = true := by
  intro n
  induction n with
  | zero => intro fuel pos h1; omega
  | succ m ih =>
    intro fuel pos _ hfuel hrun hplay
    obtain ⟨f, rfl⟩ : ∃ f, fuel = f + 1 := ⟨fuel - 1, by omega⟩
    simp only [legalScan]
    by_cases hm : m = 0
    · subst hm
      have harith : pos + ((1 : Nat) : Int) * dir = pos + dir := by push_cast; ring
      rw [harith] at hplay
      rw [if_pos hplay]
    · have hfirst : rd b (pos + dir) = opponent player := by
        have hr := hrun 1 (le_refl 1) (by omega)
        have harith : pos + ((1 : Nat) : Int) * dir = pos + dir := by push_cast; ring
        rw [harith] at hr
        exact hr
      have hnp : rd b (pos + dir) ≠ player := by
        rw [hfirst]
        exact fun he => opponent_ne player he
      have hne : ¬ (rd b (pos + dir) = EMPTY ∨ rd b (pos + dir) = OUTER) := by
        rw [hfirst]
        rintro (he | he)
        · rcases opponent_vals player with hv | hv <;> rw [hv] at he <;> simp [EMPTY, BLACK, WHITE] at he
        · exact opponent_ne_OUTER player he
      rw [if_neg hnp, if_neg hne]
      apply ih f (pos + dir) (by omega) (by omega)
      · intro k hk1 hk2
        have hr := hrun (k + 1) (by omega) (by omega)
        have harith : pos + ((k + 1 : Nat) : Int) * dir = pos + dir + (k : Int) * dir := by
          push_cast; ring
        rw [harith] at hr
        exact hr
      · have harith : pos + ((m + 1 : Nat) : Int) * dir = pos + dir + (m : Int) * dir := by
          push_cast; ring
        rw [harith] at hplay
        exact hplay

/-- The length of an opponent run is bounded by the array size, so the fixed
walk fuel always suffices. -/
theorem run_bound (b : Board) (player dir : Int) (hlen : b.length = 100)
    (hdir : dir ≠ 0) (hp : player = BLACK ∨ player = WHITE)
    (move : Int) (n : Nat)
    (hfirst : rd b (move + 1 * dir) = opponent player)
    (hplay : rd b (move + ((n + 1 : Nat) : Int) * dir) = player) : n ≤ 99 := by
  have hr1 := rd_range b (move + 1 * dir) (by rw [hfirst]; exact opponent_ne_OUTER player)
  have hpo : player ≠ OUTER := by
    rcases hp with h | h <;> rw [h] <;> decide
  have hr2 := rd_range b (move + ((n + 1 : Nat) : Int) * dir) (by rw [hplay]; exact hpo)
  rw [hlen] at hr1 hr2
  have h1 : 0 ≤ move + 1 * dir ∧ move + 1 * dir < 100 := by omega
  have h2 : 0 ≤ move + ((n + 1 : Nat) : Int) * dir
      ∧ move + ((n + 1 : Nat) : Int) * dir < 100 := by omega
  have hdiff : -100 < (n : Int) * dir ∧ (n : Int) * dir < 100 := by
    constructor <;> push_cast at h2 ⊢ <;> nlinarith [h1.1, h1.2, h2.1, h2.2]
  by_contra hn
  push_neg at hn
  rcases lt_or_gt_of_ne hdir with hneg | hpos
  · have : (n : Int) * dir ≤ (n : Int) * (-1) := by
      apply mul_le_mul_of_nonneg_left (by omega) (by positivity)
    have : (n : Int) * dir ≤ -(n : Int) := by linarith
    omega
  · have : (n : Int) * 1 ≤ (n : Int) * dir := by
      apply mul_le_mul_of_nonneg_left (by omega) (by positivity)
    omega

/-- C3 (first equivalence): `legalMove` holds exactly when the cell is empty
and some direction carries a non-empty opponent run capped by the mover's
color. -/
theorem legalMove_iff_raySpec (b : Board) (move player : Int)
    (hlen : b.length = 100) (hc : CellsOK b)
    (hp : player = BLACK ∨ player = WHITE) :
    legalMove b move player = true ↔ (rd b move = EMPTY ∧ raySpec b move player) := by
  constructor
  · intro h
    unfold legalMove at h
    by_cases he : rd b move ≠ EMPTY
    · rw [if_pos he] at h
      simp at h
    · push_neg at he
      rw [if_neg (by simpa using he)] at h
      refine ⟨he, ?_⟩
      obtain ⟨dir, hdirmem, hf⟩ := List.any_eq_true.mp h
      obtain ⟨hfirst, hscan⟩ := Bool.and_eq_true_iff.mp hf
      have hfirst2 : rd b (move + dir) = opponent player := of_decide_eq_true hfirst
      obtain ⟨n, hn1, hrun, hplay⟩ :=
        legalScan_success b player dir hlen hc hp walkFuel (move + dir) hscan
      refine ⟨dir, hdirmem, n, hn1, ?_, ?_⟩
      · intro k hk1 hk2
        cases k with
        | zero => omega
        | succ k2 =>
          cases k2 with
          | zero =>
            have harith : move + ((1 : Nat) : Int) * dir = move + dir := by
              push_cast; ring
            rw [harith]
            exact hfirst2
          | succ k3 =>
            have hr := hrun (k3 + 1) (by omega) (by omega)
            have harith : move + dir + ((k3 + 1 : Nat) : Int) * dir
                = move + ((k3 + 1 + 1 : Nat) : Int) * dir := by
              push_cast; ring
            rw [harith] at hr
            exact hr
      · have harith : move + dir + ((n : Nat) : Int) * dir
            = move + ((n + 1 : Nat) : Int) * dir := by
          push_cast; ring
        rw [harith] at hplay
        exact hplay
  · rintro ⟨he, dir, hdirmem, n, hn1, hrun, hplay⟩
    unfold legalMove
    rw [if_neg (by simpa using he)]
    apply List.any_eq_true.mpr
    refine ⟨dir, hdirmem, ?_⟩
    have hfirst : rd b (move + dir) = opponent player := by
      have hr := hrun 1 (le_refl 1) hn1
      have harith : move + ((1 : Nat) : Int) * dir = move + dir := by push_cast; ring
      rw [harith] at hr
      exact hr
    apply Bool.and_eq_true_iff.mpr
    refine ⟨decide_eq_true hfirst, ?_⟩
    have hdir := dirs_nonzero dir hdirmem
    have hbound : n ≤ 99 := by
      apply run_bound b player dir hlen hdir hp move n _ hplay
      have hr := hrun 1 (le_refl 1) hn1
      have harith : move + ((1 : Nat) : Int) * dir = move + 1 * dir := by push_cast; ring
      rw [harith] at hr
      exact hr
    apply legalScan_of_run b player dir n walkFuel (move + dir) hn1
      (by unfold walkFuel; omega)
    · intro k hk1 hk2
      have hr := hrun (k + 1) (by omega) (by omega)
      have harith : move + ((k + 1 : Nat) : Int) * dir
          = move + dir + ((k : Nat) : Int) * dir := by
        push_cast; ring
      rw [harith] at hr
      exact hr
    · have harith : move + ((n + 1 : Nat) : Int) * dir
          = move + dir + ((n : Nat) : Int) * dir := by
        push_cast; ring
      rw [harith] at hplay
      exact hplay



theorem rd_zero_of_borders (b : Board) (hb : Borders b) : rd b 0 = OUTER := by
  have h := hb 0 (by decide) (by decide)
  unfold rd
  rw [if_neg (by omega)]
  exact h


theorem raySpec_iff_runVia (b : Board) (move player : Int) :
    raySpec b move player ↔ ∃ dir ∈ AllDirections, runVia b move player dir := Iff.rfl

/-- `findBracketingPiece` only looks at the cells of its ray. -/
theorem fbp_congr (b1 b2 : Board) (player dir : Int) :
    ∀ (fuel : Nat) (sq : Int),
      (∀ j : Nat, rd b1 (sq + j * dir) = rd b2 (sq + j * dir)) →
      findBracketingPiece b1 player dir fuel sq
        = findBracketingPiece b2 player dir fuel sq := by
  intro fuel
  induction fuel with
  | zero => intro sq _; rfl
  | succ f ih =>
    intro sq h
    have h0 : rd b1 sq = rd b2 sq := by
      have hj := h 0
      simpa using hj
    simp only [findBracketingPiece, h0]
    split
    · rfl
    · split
      · apply ih
        intro j
        have hj := h (j + 1)
        have harith : sq + ((j + 1 : Nat) : Int) * dir = sq + dir + (j : Int) * dir := by
          push_cast; ring
        rw [harith] at hj
        exact hj
      · rfl

/-- On a certified run, `findBracketingPiece` returns the capping cell. -/
theorem fbp_of_run (b : Board) (player dir : Int) :
    ∀ (n fuel : Nat) (sq : Int), n < fuel →
      (∀ j : Nat, j < n → rd b (sq + j * dir) = opponent player) →
      rd b (sq + (n : Nat) * dir) = player →
      findBracketingPiece b player dir fuel sq = sq + (n : Nat) * dir := by
  intro n
  induction n with
  | zero =>
    intro fuel sq hf _ hplay
    obtain ⟨f, rfl⟩ : ∃ f, fuel = f + 1 := ⟨fuel - 1, by omega⟩
    have harith : sq + ((0 : Nat) : Int) * dir = sq := by push_cast; ring
    rw [harith] at hplay ⊢
    simp only [findBracketingPiece, hplay, if_true]
  | succ m ih =>
    intro fuel sq hf hrun hplay
    obtain ⟨f, rfl⟩ : ∃ f, fuel = f + 1 := ⟨fuel - 1, by omega⟩
    have h0 : rd b sq = opponent player := by
      have hj := hrun 0 (by omega)
      simpa using hj
    have hnp : rd b sq ≠ player := by
      rw [h0]
      exact fun he => opponent_ne player he
    simp only [findBracketingPiece]
    rw [if_neg hnp, if_pos h0]
    have hres := ih f (sq + dir) (by omega)
      (fun j hj => by
        have hr := hrun (j + 1) (by omega)
        have harith : sq + ((j + 1 : Nat) : Int) * dir = sq + dir + (j : Int) * dir := by
          push_cast; ring
        rw [harith] at hr
        exact hr)
      (by
        have harith : sq + ((m + 1 : Nat) : Int) * dir = sq + dir + (m : Int) * dir := by
          push_cast; ring
        rw [harith] at hplay
        exact hplay)
    rw [hres]
    push_cast
    ring

theorem flipRecordLoop_stop (player dir : Int) (fuel : Nat) (b : Board) (pos : Int) :
    (flipRecordLoop player dir fuel b pos pos).2 = [] := by
  cases fuel with
  | zero => rfl
  | succ f => simp [flipRecordLoop]

theorem flipRecordLoop_ne_nil (player dir : Int) (fuel : Nat) (b : Board)
    (pos br : Int) (hne : pos ≠ br) (hf : 1 ≤ fuel) :
    (flipRecordLoop player dir fuel b pos br).2 ≠ [] := by
  obtain ⟨f, rfl⟩ : ∃ f, fuel = f + 1 := ⟨fuel - 1, by omega⟩
  simp [flipRecordLoop, if_neg hne]

/-- On the board right after the move cell is placed, a direction with a
certified run records at least one flip. -/
theorem makeFlipsAndRecord_nonempty (b : Board) (move player dir : Int)
    (hlen : b.length = 100) (hb : Borders b) (hdir : dir ≠ 0)
    (hp : player = BLACK ∨ player = WHITE)
    (hrun : runVia b move player dir) :
    (makeFlipsAndRecord (wr b move player) move player dir).2 ≠ [] := by
  obtain ⟨n, hn1, hrun, hplay⟩ := hrun
  have hagree : ∀ j : Nat, rd (wr b move player) (move + dir + j * dir)
      = rd b (move + dir + j * dir) := by
    intro j
    apply rd_wr_ne
    intro he
    have hz : ((j : Int) + 1) * dir = 0 := by linarith [he]
    rcases mul_eq_zero.mp hz with h1 | h1
    · omega
    · exact hdir h1
  have hrun2 : ∀ j : Nat, j < n → rd b (move + dir + j * dir) = opponent player := by
    intro j hj
    have hr := hrun (j + 1) (by omega) (by omega)
    have harith : move + ((j + 1 : Nat) : Int) * dir = move + dir + (j : Int) * dir := by
      push_cast; ring
    rw [harith] at hr
    exact hr
  have hplay2 : rd b (move + dir + (n : Nat) * dir) = player := by
    have harith : move + ((n + 1 : Nat) : Int) * dir = move + dir + (n : Int) * dir := by
      push_cast; ring
    rw [harith] at hplay
    exact hplay
  have hfirst : rd b (move + 1 * dir) = opponent player := by
    have hr := hrun 1 (le_refl 1) hn1
    have harith : move + ((1 : Nat) : Int) * dir = move + 1 * dir := by push_cast; ring
    rw [harith] at hr
    exact hr
  have hbound : n ≤ 99 := run_bound b player dir hlen hdir hp move n hfirst hplay
  have hfbp : findBracketingPiece (wr b move player) player dir walkFuel (move + dir)
      = move + dir + (n : Nat) * dir := by
    rw [fbp_congr (wr b move player) b player dir walkFuel (move + dir) hagree]
    exact fbp_of_run b player dir n walkFuel (move + dir) (by unfold walkFuel; omega)
      hrun2 hplay2
  have hbrne : move + dir + (n : Nat) * dir ≠ 0 := by
    intro he
    have hout := rd_zero_of_borders b hb
    rw [← he, hplay2] at hout
    rcases hp with h | h <;> rw [h] at hout <;> simp [BLACK, WHITE, OUTER] at hout
  have hpose : move + dir ≠ move + dir + (n : Nat) * dir := by
    intro he
    have hz : (n : Int) * dir = 0 := by linarith [he]
    rcases mul_eq_zero.mp hz with h1 | h1
    · omega
    · exact hdir h1
  unfold makeFlipsAndRecord
  rw [hfbp, if_pos hbrne]
  exact flipRecordLoop_ne_nil player dir walkFuel (wr b move player)
    (move + dir) _ hpose (by unfold walkFuel; omega)

/-- On the board right after the move cell is placed, a direction with no
certified run records no flip. -/
theorem makeFlipsAndRecord_empty (b : Board) (move player dir : Int)
    (hdir : dir ≠ 0) (hnorun : ¬ runVia b move player dir) :
    (makeFlipsAndRecord (wr b move player) move player dir).2 = [] := by
  have hagree : ∀ j : Nat, rd (wr b move player) (move + dir + j * dir)
      = rd b (move + dir + j * dir) := by
    intro j
    apply rd_wr_ne
    intro he
    have hz : ((j : Int) + 1) * dir = 0 := by linarith [he]
    rcases mul_eq_zero.mp hz with h1 | h1
    · omega
    · exact hdir h1
  unfold makeFlipsAndRecord
  by_cases hbr : findBracketingPiece (wr b move player) player dir walkFuel (move + dir) ≠ 0
  · rw [if_pos hbr]
    rw [fbp_congr (wr b move player) b player dir walkFuel (move + dir) hagree] at hbr ⊢
    obtain ⟨k, hk, hbrk, hrun, hplay⟩ :=
      fbp_spec b player dir walkFuel (move + dir) _ rfl hbr
    cases hk0 : k with
    | zero =>
      subst hk0
      have hbrk2 : findBracketingPiece b player dir walkFuel (move + dir) = move + dir := by
        rw [hbrk]
        simp
      rw [hbrk2]
      exact flipRecordLoop_stop player dir walkFuel (wr b move player) (move + dir)
    | succ k2 =>
      exfalso
      apply hnorun
      refine ⟨k, by omega, ?_, ?_⟩
      · intro i hi1 hi2
        have hr := hrun (i - 1) (by omega)
        have harith : move + dir + ((i - 1 : Nat) : Int) * dir
            = move + ((i : Nat) : Int) * dir := by
          have : ((i - 1 : Nat) : Int) = (i : Int) - 1 := by omega
          rw [this]
          ring
        rw [harith] at hr
        exact hr
      · rw [hbrk] at hplay
        have harith : move + dir + ((k : Nat) : Int) * dir
            = move + ((k + 1 : Nat) : Int) * dir := by
          push_cast; ring
        rw [harith] at hplay
        rw [hk0] at hplay ⊢
        exact hplay
  · rw [if_neg hbr]

/-- Once some flip has been recorded, the rest of the direction fold keeps
the flip list non-empty. -/
theorem fold_flips_mono (move player : Int) :
    ∀ (dirs : List Int) (st : Board × UndoInfo), st.2.flippedPositions ≠ [] →
      (dirs.foldl
        (fun st dir =>
          let r := makeFlipsAndRecord st.1 move player dir
          (r.1, { st.2 with flippedPositions := st.2.flippedPositions ++ r.2 }))
        st).2.flippedPositions ≠ [] := by
  intro dirs
  induction dirs with
  | nil => intro st h; exact h
  | cons d ds ih =>
    intro st h
    simp only [List.foldl_cons]
    apply ih
    simp only []
    intro happ
    exact h (List.append_eq_nil.mp happ).1

/-- If no direction carries a run, the whole direction fold records no flip
and leaves the board at the placed-move state. -/
theorem fold_no_flips (b : Board) (move player : Int) :
    ∀ (dirs : List Int),
      (∀ d ∈ dirs, d ≠ 0 ∧ ¬ runVia b move player d) →
      ∀ (st : Board × UndoInfo), st.2.flippedPositions = [] →
        st.1 = wr b move player →
        (dirs.foldl
          (fun st dir =>
            let r := makeFlipsAndRecord st.1 move player dir
            (r.1, { st.2 with flippedPositions := st.2.flippedPositions ++ r.2 }))
          st).2.flippedPositions = [] ∧
        (dirs.foldl
          (fun st dir =>
            let r := makeFlipsAndRecord st.1 move player dir
            (r.1, { st.2 with flippedPositions := st.2.flippedPositions ++ r.2 }))
          st).1 = wr b move player := by
  intro dirs
  induction dirs with
  | nil => intro _ st h1 h2; exact ⟨h1, h2⟩
  | cons d ds ih =>
    intro hd st h1 h2
    obtain ⟨hdz, hdr⟩ := hd d (List.mem_cons_self d ds)
    have hflips : (makeFlipsAndRecord st.1 move player d).2 = [] := by
      rw [h2]
      exact makeFlipsAndRecord_empty b move player d hdz hdr
    have hboard : (makeFlipsAndRecord st.1 move player d).1 = wr b move player := by
      obtain ⟨_, s2, _, s4⟩ := makeFlipsAndRecord_spec st.1 move player d hdz
    -- every cell untouched since the flip list is empty
      rw [← h2]
      apply board_ext _ _ s4
      intro q
      apply s2
      rw [hflips]
      exact List.not_mem_nil q
    simp only [List.foldl_cons]
    apply ih (fun x hx => hd x (List.mem_cons_of_mem d hx))
    · simp only [hflips, h1, List.append_nil]
    · exact hboard

/-- If some pending direction carries a run, the direction fold ends with a
non-empty flip list. -/
theorem fold_flips_nonempty (b : Board) (move player : Int)
    (hlen : b.length = 100) (hb : Borders b)
    (hp : player = BLACK ∨ player = WHITE) :
    ∀ (dirs : List Int), (∀ d ∈ dirs, d ≠ 0) →
      ∀ (st : Board × UndoInfo),
        (st.2.flippedPositions ≠ [] ∨
          (st.2.flippedPositions = [] ∧ st.1 = wr b move player ∧
            ∃ d ∈ dirs, runVia b move player d)) →
        (dirs.foldl
          (fun st dir =>
            let r := makeFlipsAndRecord st.1 move player dir
            (r.1, { st.2 with flippedPositions := st.2.flippedPositions ++ r.2 }))
          st).2.flippedPositions ≠ [] := by
  intro dirs
  induction dirs with
  | nil =>
    intro _ st h
    rcases h with h | ⟨_, _, d, hdm, _⟩
    · exact h
    · exact absurd hdm (List.not_mem_nil d)
  | cons d ds ih =>
    intro hd st h
    rcases h with h | ⟨hnil, hboard, d2, hd2m, hrun⟩
    · exact fold_flips_mono move player (d :: ds) st h
    · rcases List.mem_cons.mp hd2m with rfl | hmem
      · simp only [List.foldl_cons]
        apply fold_flips_mono
        show st.2.flippedPositions ++ (makeFlipsAndRecord st.1 move player d2).2 ≠ []
        rw [hnil, hboard, List.nil_append]
        exact makeFlipsAndRecord_nonempty b move player d2 hlen hb
          (hd d2 (List.mem_cons_self d2 ds)) hp hrun
      · simp only [List.foldl_cons]
        apply ih (fun x hx => hd x (List.mem_cons_of_mem d hx))
        by_cases hF : (makeFlipsAndRecord st.1 move player d).2 = []
        · right
          refine ⟨by simp [hnil, hF], ?_, d2, hmem, hrun⟩
          obtain ⟨_, s2, _, s4⟩ :=
            makeFlipsAndRecord_spec st.1 move player d (hd d (List.mem_cons_self d ds))
          show (makeFlipsAndRecord st.1 move player d).1 = wr b move player
          rw [← hboard]
          apply board_ext _ _ s4
          intro q
          apply s2
          rw [hF]
          exact List.not_mem_nil q
        · left
          simp only [hnil, List.nil_append]
          exact hF


/-- Counterexample to the second equivalence of C3 as stated: on a
well-formed position, probing the occupied interior cell 44 for Black is
illegal, yet applying `makeMoveWithUndo` there records the flip of cell
45. -/
theorem C3_counterexample :
    legalMove occBoard 44 BLACK = false ∧
    (makeMoveWithUndo occBoard 44 BLACK).2.flippedPositions = [45] ∧
    (44 : Int) ∈ interiorCells ∧
    occBoard.length = 100 ∧ CellsOK occBoard ∧ Borders occBoard := by
  set_option maxRecDepth 40000 in decide

/-- C3 as amended: `legalMove` holds exactly when the cell is empty and some
direction carries a non-empty opponent run capped by the mover's color; and
for an EMPTY cell, legality is equivalent to `makeMoveWithUndo` recording at
least one flip. -/
theorem C3_amended_legality (b : Board) (move player : Int)
    (hlen : b.length = 100) (hc : CellsOK b) (hb : Borders b)
    (hp : player = BLACK ∨ player = WHITE) (hmove : move ∈ interiorCells) :
    (legalMove b move player = true ↔ (rd b move = EMPTY ∧ raySpec b move player)) ∧
    (rd b move = EMPTY →
      (legalMove b move player = true ↔
        (makeMoveWithUndo b move player).2.flippedPositions ≠ [])) := by
  refine ⟨legalMove_iff_raySpec b move player hlen hc hp, ?_⟩
  intro he
  constructor
  · intro hl
    obtain ⟨-, d, hdm, hrun⟩ := (legalMove_iff_raySpec b move player hlen hc hp).mp hl
    unfold makeMoveWithUndo
    apply fold_flips_nonempty b move player hlen hb hp AllDirections dirs_nonzero
    right
    exact ⟨rfl, rfl, d, hdm, hrun⟩
  · intro hflips
    by_contra hnl
    have hnray : ¬ raySpec b move player := fun hray =>
      hnl ((legalMove_iff_raySpec b move player hlen hc hp).mpr ⟨he, hray⟩)
    have h0 := fold_no_flips b move player AllDirections
      (fun d hdm => ⟨dirs_nonzero d hdm, fun hrun => hnray ⟨d, hdm, hrun⟩⟩)
      (wr b move player, { move := move, flippedPositions := [] }) rfl rfl
    apply hflips
    unfold makeMoveWithUndo
    exact h0.1

/-- Witness for the amended C3 at the initial position and Black's move
35. -/
theorem C3_amended_legality_witness :
    (legalMove initBoard 35 BLACK = true ↔
      (rd initBoard 35 = EMPTY ∧ raySpec initBoard 35 BLACK)) ∧
    (rd initBoard 35 = EMPTY →
      (legalMove initBoard 35 BLACK = true ↔
        (makeMoveWithUndo initBoard 35 BLACK).2.flippedPositions ≠ [])) :=
  C3_amended_legality initBoard 35 BLACK
    (by set_option maxRecDepth 40000 in decide)
    (by set_option maxRecDepth 40000 in decide)
    (by set_option maxRecDepth 40000 in decide)
    (Or.inl rfl)
    (by set_option maxRecDepth 40000 in decide)

/-! ### C1: full-window search against plain negamax -/

theorem foldl_max_shift (f : Int → Int) :
    ∀ (l : List Int) (a b : Int),
      l.foldl (fun acc m => max acc (f m)) (max a b)
        = max a (l.foldl (fun acc m => max acc (f m)) b) := by
  intro l
  induction l with
  | nil => intro a b; rfl
  | cons x xs ih =>
    intro a b
    simp only [List.foldl_cons]
    rw [max_assoc, ih]

theorem foldl_max_le_init (f : Int → Int) :
    ∀ (l : List Int) (a : Int), a ≤ l.foldl (fun acc m => max acc (f m)) a := by
  intro l
  induction l with
  | nil => intro a; exact le_refl a
  | cons x xs ih =>
    intro a
    simp only [List.foldl_cons]
    exact le_trans (le_max_left a (f x)) (ih (max a (f x)))

theorem foldl_max_le_mem (f : Int → Int) :
    ∀ (l : List Int) (a : Int) (m : Int), m ∈ l →
      f m ≤ l.foldl (fun acc m => max acc (f m)) a := by
  intro l
  induction l with
  | nil => intro a m hm; simp at hm
  | cons x xs ih =>
    intro a m hm
    simp only [List.foldl_cons]
    rcases List.mem_cons.mp hm with rfl | hm2
    · exact le_trans (le_max_right a (f m)) (foldl_max_le_init f xs _)
    · exact ih _ m hm2

theorem foldl_max_mono (f : Int → Int) :
    ∀ (l : List Int) (a b : Int), a ≤ b →
      l.foldl (fun acc m => max acc (f m)) a ≤ l.foldl (fun acc m => max acc (f m)) b := by
  intro l
  induction l with
  | nil => intro a b h; exact h
  | cons x xs ih =>
    intro a b h
    simp only [List.foldl_cons]
    exact ih _ _ (max_le_max_right (f x) h)

theorem foldl_max_bounded (f : Int → Int) :
    ∀ (l : List Int) (a c : Int), a ≤ c → (∀ m ∈ l, f m ≤ c) →
      l.foldl (fun acc m => max acc (f m)) a ≤ c := by
  intro l
  induction l with
  | nil => intro a c h _; exact h
  | cons x xs ih =>
    intro a c h hall
    simp only [List.foldl_cons]
    exact ih _ _ (max_le h (hall x (List.mem_cons_self x xs)))
      fun m hm => hall m (List.mem_cons_of_mem x hm)

/-- A fold whose step moves by at most `c` per element stays within
`c * length` of its start. -/
theorem foldl_step_bound {α : Type} (g : Int → α → Int) (c : Int) :
    ∀ (l : List α), (∀ acc x, x ∈ l → acc - c ≤ g acc x ∧ g acc x ≤ acc + c) →
      ∀ a : Int, a - c * l.length ≤ l.foldl g a ∧ l.foldl g a ≤ a + c * l.length := by
  intro l
  induction l with
  | nil => intro _ a; simp
  | cons x xs ih =>
    intro h a
    simp only [List.foldl_cons, List.length_cons]
    have hx := h a x (List.mem_cons_self x xs)
    have hr := ih (fun acc y hy => h acc y (List.mem_cons_of_mem x hy)) (g a x)
    push_cast
    constructor <;> nlinarith [hr.1, hr.2, hx.1, hx.2]

theorem countPieces_bound (b : Board) : -64 ≤ countPieces b ∧ countPieces b ≤ 64 := by
  have h := foldl_step_bound
    (fun c i => if rd b i = BLACK ∨ rd b i = WHITE then c + 1 else c) 1 interiorCells
    (fun acc x _ => by dsimp only; split <;> omega) 0
  have hlen : (interiorCells.length : Int) = 64 := by decide
  rw [hlen] at h
  unfold countPieces
  omega

theorem countDiscs_bound (b : Board) (p : Int) :
    -64 ≤ countDiscs b p ∧ countDiscs b p ≤ 64 := by
  have h := foldl_step_bound
    (fun c i => if rd b i = p then c + 1 else c) 1 interiorCells
    (fun acc x _ => by dsimp only; split <;> omega) 0
  have hlen : (interiorCells.length : Int) = 64 := by decide
  rw [hlen] at h
  unfold countDiscs
  omega

theorem mobility_bound (b : Board) (p : Int) :
    -1280 ≤ mobility b p ∧ mobility b p ≤ 1280 := by
  have h1 := foldl_step_bound
    (fun c m => if legalMove b m p then c + 1 else c) 1 interiorCells
    (fun acc x _ => by dsimp only; split <;> omega) 0
  have h2 := foldl_step_bound
    (fun c m => if legalMove b m (opponent p) then c + 1 else c) 1 interiorCells
    (fun acc x _ => by dsimp only; split <;> omega) 0
  have hlen : (interiorCells.length : Int) = 64 := by decide
  rw [hlen] at h1 h2
  unfold mobility
  dsimp only
  omega

theorem cornerControl_bound (b : Board) (p : Int) :
    -400 ≤ cornerControl b p ∧ cornerControl b p ≤ 400 := by
  have h := foldl_step_bound
    (fun score corner =>
      if rd b corner = p then score + 100
      else if rd b corner = opponent p then score - 100
      else score) 100 corners
    (fun acc x _ => by dsimp only; split <;> [omega; (split <;> omega)]) 0
  have hlen : (corners.length : Int) = 4 := by decide
  rw [hlen] at h
  unfold cornerControl
  omega

theorem edgeControl_bound (b : Board) (p : Int) :
    -120 ≤ edgeControl b p ∧ edgeControl b p ≤ 120 := by
  have h := foldl_step_bound
    (fun score pos =>
      if rd b pos = p then score + 5
      else if rd b pos = opponent p then score - 5
      else score) 5 edgePositions
    (fun acc x _ => by dsimp only; split <;> [omega; (split <;> omega)]) 0
  have hlen : (edgePositions.length : Int) = 24 := by decide
  rw [hlen] at h
  unfold edgeControl
  omega

theorem stability_bound (b : Board) (p : Int) :
    -640 ≤ stability b p ∧ stability b p ≤ 640 := by
  have h := foldl_step_bound
    (fun stable pos =>
      if rd b pos = p ∧ isStable b pos p then stable + 10
      else if rd b pos = opponent p ∧ isStable b pos (opponent p) then stable - 10
      else stable) 10 interiorCells
    (fun acc x _ => by dsimp only; split <;> [omega; (split <;> omega)]) 0
  have hlen : (interiorCells.length : Int) = 64 := by decide
  rw [hlen] at h
  unfold stability
  omega

theorem dangerousSquares_bound (b : Board) (p : Int) :
    -300 ≤ dangerousSquares b p ∧ dangerousSquares b p ≤ 300 := by
  have h := foldl_step_bound
    (fun penalty spot =>
      if rd b spot.2 ≠ p then
        if rd b spot.1 = p then penalty - 25
        else if rd b spot.1 = opponent p then penalty + 25
        else penalty
      else penalty) 25 dangerousSpots
    (fun acc x _ => by dsimp only; split <;> [ (split <;> [omega; (split <;> omega)]); omega]) 0
  have hlen : (dangerousSpots.length : Int) = 12 := by decide
  rw [hlen] at h
  unfold dangerousSquares
  omega

theorem parity_bound (b : Board) (p : Int) : -3 ≤ parity b p ∧ parity b p ≤ 3 := by
  unfold parity
  dsimp only
  split <;> omega

theorem advancedEvaluation_bound (b : Board) (p : Int) :
    -32767 ≤ advancedEvaluation b p ∧ advancedEvaluation b p ≤ 32767 := by
  have h1 := mobility_bound b p
  have h2 := cornerControl_bound b p
  have h3 := edgeControl_bound b p
  have h4 := stability_bound b p
  have h5 := dangerousSquares_bound b p
  have h6 := parity_bound b p
  have h7 := countDiscs_bound b p
  have h8 := countDiscs_bound b (opponent p)
  unfold advancedEvaluation
  dsimp only
  split
  · constructor <;> nlinarith [h1.1, h1.2, h2.1, h2.2, h5.1, h5.2]
  · split
    · constructor <;>
        nlinarith [h1.1, h1.2, h2.1, h2.2, h3.1, h3.2, h4.1, h4.2, h5.1, h5.2]
    · constructor <;>
        nlinarith [h2.1, h2.2, h4.1, h4.2, h6.1, h6.2, h7.1, h7.2, h8.1, h8.2]

theorem terminalValue_bound (b : Board) (p : Int) :
    -32767 ≤ terminalValue b p ∧ terminalValue b p ≤ 32767 := by
  unfold terminalValue WinningValue LosingValue
  dsimp only
  split
  · omega
  · split <;> omega

theorem negamaxFW_bound (b : Board) (p : Int) :
    ∀ d : Nat, -32767 ≤ negamaxFW b p d ∧ negamaxFW b p d ≤ 32767 := by
  intro d
  induction d generalizing b p with
  | zero => exact advancedEvaluation_bound b p
  | succ n ih =>
    simp only [negamaxFW]
    split
    · split
      · have h := ih b (opponent p)
        omega
      · exact terminalValue_bound b p
    · rename_i hne
      constructor
      · obtain ⟨m, rest, hmr⟩ : ∃ m rest,
            (interiorCells.filter fun i => rd b i = EMPTY && legalMove b i p)
              = m :: rest := by
          cases hc : (interiorCells.filter fun i => rd b i = EMPTY && legalMove b i p) with
          | nil => rw [hc] at hne; simp at hne
          | cons m rest => exact ⟨m, rest, rfl⟩
        rw [hmr]
        have hmem : m ∈ m :: rest := List.mem_cons_self m rest
        have hb := foldl_max_le_mem
          (fun m => -negamaxFW (makeMove b m p) (opponent p) n) (m :: rest) INT_MIN m hmem
        dsimp only at hb
        have hchild := ih (makeMove b m p) (opponent p)
        omega
      · apply foldl_max_bounded
        · unfold INT_MIN
          omega
        · intro m _
          have hchild := ih (makeMove b m p) (opponent p)
          omega

theorem mem_insertOrdered (lt : Int → Int → Bool) (x m : Int) :
    ∀ l : List Int, m ∈ insertOrdered lt x l ↔ m = x ∨ m ∈ l := by
  intro l
  induction l with
  | nil => simp [insertOrdered]
  | cons y ys ih =>
    unfold insertOrdered
    split
    · simp only [List.mem_cons, ih]
      tauto
    · simp only [List.mem_cons]

theorem mem_sortBy (lt : Int → Int → Bool) (m : Int) :
    ∀ l : List Int, m ∈ sortBy lt l ↔ m ∈ l := by
  intro l
  induction l with
  | nil => simp [sortBy]
  | cons y ys ih =>
    unfold sortBy
    rw [mem_insertOrdered, ih, List.mem_cons]

theorem foldl_max_insertOrdered (f : Int → Int) (lt : Int → Int → Bool) (x : Int) :
    ∀ (l : List Int) (a : Int),
      (insertOrdered lt x l).foldl (fun acc m => max acc (f m)) a
        = l.foldl (fun acc m => max acc (f m)) (max a (f x)) := by
  intro l
  induction l with
  | nil => intro a; rfl
  | cons y ys ih =>
    intro a
    unfold insertOrdered
    split
    · simp only [List.foldl_cons]
      rw [ih, sup_right_comm]
    · simp only [List.foldl_cons]

theorem foldl_max_sortBy (f : Int → Int) (lt : Int → Int → Bool) :
    ∀ (l : List Int) (a : Int),
      (sortBy lt l).foldl (fun acc m => max acc (f m)) a
        = l.foldl (fun acc m => max acc (f m)) a := by
  intro l
  induction l with
  | nil => intro a; rfl
  | cons y ys ih =>
    intro a
    unfold sortBy
    rw [foldl_max_insertOrdered, ih]
    rfl

theorem searchMoves_spec
    (child : SState → Int → Int → Int → Int × SState) (n : Nat) (p β : Int)
    (hchild : ∀ (s' : SState) (a c : Int), INT_MIN < a → c < -INT_MIN → a < c →
      (child s' (opponent p) a c).2.board = s'.board ∧
      FailSoft (child s' (opponent p) a c).1
        (negamaxFW s'.board (opponent p) n) a c) :
    ∀ (L : List Int) (b : Board) (s : SState) (bv bm α α₀ dmax : Int),
      s.board = b →
      (∀ m ∈ L, legalMove b m p = true) →
      INT_MIN < α₀ → β < -INT_MIN → α < β →
      α = max α₀ bv → dmax ≤ bv → bv ≤ max α₀ dmax →
      (searchMoves child n p β L s bv bm α).2.2.board = b ∧
      FailSoft (searchMoves child n p β L s bv bm α).1
        (L.foldl (fun acc m =>
          max acc (-negamaxFW (makeMove b m p) (opponent p) n)) dmax)
        α₀ β := by
  intro L
  induction L with
  | nil =>
    intro b s bv bm α α₀ dmax hsb _ hα₀ hβ hαβ hα hd1 hd2
    simp only [searchMoves, List.foldl_nil]
    refine ⟨hsb, ?_⟩
    unfold FailSoft
    omega
  | cons m rest ih =>
    intro b s bv bm α α₀ dmax hsb hleg hα₀ hβ hαβ hα hd1 hd2
    have hIM : INT_MIN = -2147483648 := rfl
    have hlegm : legalMove b m p = true := hleg m (List.mem_cons_self m rest)
    have hlegr : ∀ m' ∈ rest, legalMove b m' p = true :=
      fun m' hm' => hleg m' (List.mem_cons_of_mem m hm')
    simp only [searchMoves, List.foldl_cons]
    rw [hsb]
    set mk := makeMoveWithUndo b m p with hmk
    set r := child { s with board := mk.1 } (opponent p) (-β) (-α) with hrdef
    have hcs := hchild { s with board := mk.1 } (-β) (-α)
      (by omega) (by omega) (by omega)
    rw [← hrdef] at hcs
    have hbd : r.2.board = mk.1 := hcs.1
    have hfs := hcs.2
    rw [show ({ s with board := mk.1 } : SState).board = mk.1 from rfl,
      hmk, makeMoveWithUndo_fst] at hfs
    set Vc := negamaxFW (makeMove b m p) (opponent p) n with hVc
    obtain ⟨hfs1, hfs2, hfs3⟩ := hfs
    have hrest : unmakeMove r.2.board mk.2 p = b := by
      rw [hbd, hmk]
      exact unmake_roundtrip b m p hlegm
    by_cases hA : -r.1 > bv
    · rw [if_pos hA]
      by_cases hB : -r.1 > α
      · rw [if_pos hB]
        dsimp only
        by_cases hC : -r.1 ≥ β
        · rw [if_pos hC]
          dsimp only
          refine ⟨hrest, ?_, ?_, ?_⟩
          · rintro ⟨_, h2⟩; omega
          · intro h1; exfalso; omega
          · intro _
            have hval : Vc ≤ r.1 := hfs2 (by omega)
            have hfold := foldl_max_le_init
              (fun m' => -negamaxFW (makeMove b m' p) (opponent p) n)
              rest (max dmax (-Vc))
            omega
        · rw [if_neg hC]
          have hw : r.1 = Vc := hfs1 ⟨by omega, by omega⟩
          exact ih b
            ⟨unmakeMove r.2.board mk.2 p, r.2.table, r.2.history,
              upd r.2.bestm ((n : Int) + 1) m⟩
            (-r.1) m (-r.1) α₀ (max dmax (-Vc)) hrest hlegr
            hα₀ hβ (by omega) (by omega) (by omega) (by omega)
      · rw [if_neg hB]
        dsimp only
        rw [if_neg (show ¬ α ≥ β by omega)]
        have hVcr : Vc ≥ r.1 := hfs3 (by omega)
        exact ih b
          ⟨unmakeMove r.2.board mk.2 p, r.2.table, r.2.history, r.2.bestm⟩
          (-r.1) m α α₀ (max dmax (-Vc)) hrest hlegr
          hα₀ hβ hαβ (by omega) (by omega) (by omega)
    · rw [if_neg hA]
      have hVcb : -Vc ≤ bv := by
        rcases le_or_lt (-r.1) α with h | h
        · have := hfs3 (by omega); omega
        · rcases lt_or_le (-r.1) β with h2 | h2
          · have := hfs1 (by constructor <;> omega); omega
          · exfalso; omega
      exact ih b
        ⟨unmakeMove r.2.board mk.2 p, r.2.table, r.2.history, r.2.bestm⟩
        bv bm α α₀ (max dmax (-Vc)) hrest hlegr
        hα₀ hβ hαβ hα (by omega) (by omega)

theorem alphabeta_false_zero (s : SState) (p α β : Int) :
    alphabeta false 0 s p α β = (advancedEvaluation s.board p, s) := rfl

theorem alphabeta_false_succ (n : Nat) (s : SState) (p α β : Int) :
    alphabeta false (n + 1) s p α β =
      if (interiorCells.filter fun i =>
          rd s.board i = EMPTY && legalMove s.board i p).isEmpty then
        if hasLegalMoves s.board (opponent p) then
          (-(alphabeta false n s (opponent p) (-β) (-α)).1,
           (alphabeta false n s (opponent p) (-β) (-α)).2)
        else (terminalValue s.board p, s)
      else
        ((searchMoves (fun s p a c => alphabeta false n s p a c) n p β
           (orderMoves s.board s.history p
             (interiorCells.filter fun i =>
               rd s.board i = EMPTY && legalMove s.board i p))
           s INT_MIN (-1) α).1,
         (searchMoves (fun s p a c => alphabeta false n s p a c) n p β
           (orderMoves s.board s.history p
             (interiorCells.filter fun i =>
               rd s.board i = EMPTY && legalMove s.board i p))
           s INT_MIN (-1) α).2.2) := rfl

theorem alphabeta_false_spec :
    ∀ (d : Nat) (s : SState) (p α β : Int),
      INT_MIN < α → β < -INT_MIN → α < β →
      (alphabeta false d s p α β).2.board = s.board ∧
      FailSoft (alphabeta false d s p α β).1 (negamaxFW s.board p d) α β := by
  intro d
  induction d with
  | zero =>
    intro s p α β hα hβ hαβ
    rw [alphabeta_false_zero]
    refine ⟨rfl, ?_⟩
    unfold FailSoft negamaxFW
    omega
  | succ n ihd =>
    intro s p α β hα hβ hαβ
    have hIM : INT_MIN = -2147483648 := rfl
    rw [alphabeta_false_succ]
    simp only [negamaxFW]
    by_cases hemp : (interiorCells.filter fun i =>
        rd s.board i = EMPTY && legalMove s.board i p).isEmpty
    · rw [if_pos hemp, if_pos hemp]
      by_cases hpass : hasLegalMoves s.board (opponent p)
      · rw [if_pos hpass, if_pos hpass]
        have hcs := ihd s (opponent p) (-β) (-α) (by omega) (by omega) (by omega)
        obtain ⟨hbd, hfs1, hfs2, hfs3⟩ := hcs
        refine ⟨hbd, ?_, ?_, ?_⟩
        · rintro ⟨h1, h2⟩
          have := hfs1 ⟨by omega, by omega⟩
          omega
        · intro h1
          have := hfs3 (by omega)
          omega
        · intro h1
          have := hfs2 (by omega)
          omega
      · rw [if_neg hpass, if_neg hpass]
        refine ⟨rfl, ?_⟩
        unfold FailSoft
        omega
    · rw [if_neg hemp, if_neg hemp]
      have hchild : ∀ (s' : SState) (a c : Int), INT_MIN < a → c < -INT_MIN → a < c →
          ((fun s p a c => alphabeta false n s p a c) s' (opponent p) a c).2.board
            = s'.board ∧
          FailSoft ((fun s p a c => alphabeta false n s p a c) s' (opponent p) a c).1
            (negamaxFW s'.board (opponent p) n) a c :=
        fun s' a c h1 h2 h3 => ihd s' (opponent p) a c h1 h2 h3
      have hleg : ∀ m ∈ orderMoves s.board s.history p
          (interiorCells.filter fun i =>
            rd s.board i = EMPTY && legalMove s.board i p),
          legalMove s.board m p = true := by
        intro m hm
        rw [orderMoves, mem_sortBy] at hm
        have := List.mem_filter.mp hm
        have hb := this.2
        rw [Bool.and_eq_true_iff] at hb
        exact hb.2
      have hsm := searchMoves_spec (fun s p a c => alphabeta false n s p a c) n p β
        hchild
        (orderMoves s.board s.history p
          (interiorCells.filter fun i =>
            rd s.board i = EMPTY && legalMove s.board i p))
        s.board s INT_MIN (-1) α α INT_MIN rfl hleg hα hβ hαβ
        (by omega) (by omega) (by omega)
      refine ⟨hsm.1, ?_⟩
      have hfold : (orderMoves s.board s.history p
          (interiorCells.filter fun i =>
            rd s.board i = EMPTY && legalMove s.board i p)).foldl
          (fun acc m => max acc (-negamaxFW (makeMove s.board m p) (opponent p) n))
          INT_MIN
          = (interiorCells.filter fun i =>
            rd s.board i = EMPTY && legalMove s.board i p).foldl
          (fun acc m => max acc (-negamaxFW (makeMove s.board m p) (opponent p) n))
          INT_MIN := by
        rw [orderMoves]
        exact foldl_max_sortBy
          (fun m => -negamaxFW (makeMove s.board m p) (opponent p) n) _ _ _
      rw [hfold] at hsm
      exact hsm.2

set_option maxRecDepth 1000000 in
set_option maxHeartbeats 12000000 in
/-- C1, counterexample: at the seven-disc position `cexBoard` with Black to
move, depth 5 and the full root window, the search as written (with the
transposition table) returns the win sentinel 32767, while plain full-width
negamax with the same evaluator and pass/terminal rules returns -330. -/
theorem C1_counterexample :
    (alphabeta true 5 (mkState cexBoard) BLACK (-1000000) 1000000).1 = 32767 ∧
    negamaxFW cexBoard BLACK 5 = -330 ∧
    (alphabeta true 5 (mkState cexBoard) BLACK (-1000000) 1000000).1 ≠
      negamaxFW cexBoard BLACK 5 := by
  have h1 : (alphabeta true 5 (mkState cexBoard) BLACK (-1000000) 1000000).1
      = 32767 := by decide
  have h2 : negamaxFW cexBoard BLACK 5 = -330 := by decide
  exact ⟨h1, h2, by omega⟩

/-- C1, amended: with the transposition table disabled (every lookup
misses, every store is dropped) and the time limit disabled, the score of
`alphabeta` at the root window `(-1000000, 1000000)` equals the score of
the plain full-width negamax of the same position, side and depth, for
every search state, position, side and depth. -/
theorem C1_amended_full_window (d : Nat) (s : SState) (p : Int) :
    (alphabeta false d s p (-1000000) 1000000).1 = negamaxFW s.board p d := by
  have hIM : INT_MIN = -2147483648 := rfl
  have h := alphabeta_false_spec d s p (-1000000) 1000000
    (by omega) (by omega) (by omega)
  obtain ⟨-, h1, h2, h3⟩ := h
  have hb := negamaxFW_bound s.board p d
  omega

set_option maxRecDepth 1000000 in
set_option maxHeartbeats 12000000 in
/-- C4, counterexample: at `cexBoard` with Black to move and depth 5,
replacing the transposition table by a no-op changes the full-window score
from 32767 to -330. -/
theorem C4_counterexample :
    (alphabeta true 5 (mkState cexBoard) BLACK (-1000000) 1000000).1 = 32767 ∧
    (alphabeta false 5 (mkState cexBoard) BLACK (-1000000) 1000000).1 = -330 ∧
    (alphabeta true 5 (mkState cexBoard) BLACK (-1000000) 1000000).1 ≠
      (alphabeta false 5 (mkState cexBoard) BLACK (-1000000) 1000000).1 := by
  have h1 : (alphabeta true 5 (mkState cexBoard) BLACK (-1000000) 1000000).1
      = 32767 := by decide
  have h2 : (alphabeta false 5 (mkState cexBoard) BLACK (-1000000) 1000000).1
      = -330 := by decide
  exact ⟨h1, h2, by omega⟩

theorem ttkey_beq_iff (a b : TTKey) : (a == b) = true ↔ a = b := by
  show (a.1 == b.1 && a.2 == b.2) = true ↔ a = b
  rw [Bool.and_eq_true_iff, beq_iff_eq, beq_iff_eq]
  constructor
  · rintro ⟨h1, h2⟩
    exact Prod.ext h1 h2
  · rintro rfl
    exact ⟨rfl, rfl⟩

theorem ttFind_nil (k : TTKey) : ttFind [] k = none := rfl

theorem ttFind_cons (x : TTKey × TTEntry) (xs : TT) (k : TTKey) :
    ttFind (x :: xs) k = if x.1 == k then some x.2 else ttFind xs k := by
  unfold ttFind
  rcases hx : x.1 == k with _ | _
  · simp [List.find?_cons, hx]
  · simp [List.find?_cons, hx]

theorem ttFind_map_assign (k : TTKey) (e : TTEntry) :
    ∀ (t : TT) (k' : TTKey) (e' : TTEntry),
      ttFind (t.map fun q => if q.1 == k then (k, e) else q) k' = some e' →
      (k' = k ∧ e' = e) ∨ ttFind t k' = some e' := by
  intro t
  induction t with
  | nil =>
    intro k' e' h
    simp [ttFind] at h
  | cons x xs ih =>
    intro k' e' h
    rw [List.map_cons] at h
    by_cases hx : (x.1 == k) = true
    · rw [if_pos hx, ttFind_cons] at h
      by_cases hk : ((k, e).1 == k') = true
      · rw [if_pos hk] at h
        left
        refine ⟨((ttkey_beq_iff _ _).mp hk).symm, ?_⟩
        injection h with h
        exact h.symm
      · rw [if_neg hk] at h
        rcases ih k' e' h with hl | hr
        · exact Or.inl hl
        · right
          rw [ttFind_cons, if_neg ?hne]
          · exact hr
          case hne =>
            intro hxk'
            have h1 := (ttkey_beq_iff _ _).mp hx
            have h2 := (ttkey_beq_iff x.1 k').mp hxk'
            apply hk
            show (k == k') = true
            rw [ttkey_beq_iff]
            rw [← h1, h2]
    · rw [if_neg hx, ttFind_cons] at h
      by_cases hk : (x.1 == k') = true
      · rw [if_pos hk] at h
        right
        rw [ttFind_cons, if_pos hk]
        exact h
      · rw [if_neg hk] at h
        rcases ih k' e' h with hl | hr
        · exact Or.inl hl
        · right
          rw [ttFind_cons, if_neg hk]
          exact hr

theorem ttFind_append_single (k : TTKey) (e : TTEntry) :
    ∀ (t : TT) (k' : TTKey) (e' : TTEntry),
      ttFind (t ++ [(k, e)]) k' = some e' →
      (k' = k ∧ e' = e) ∨ ttFind t k' = some e' := by
  intro t
  induction t with
  | nil =>
    intro k' e' h
    rw [List.nil_append, ttFind_cons] at h
    by_cases hk : ((k, e).1 == k') = true
    · rw [if_pos hk] at h
      left
      refine ⟨((ttkey_beq_iff _ _).mp hk).symm, ?_⟩
      injection h with h
      exact h.symm
    · rw [if_neg hk, ttFind_nil] at h
      exact absurd h (by simp)
  | cons x xs ih =>
    intro k' e' h
    rw [List.cons_append, ttFind_cons] at h
    by_cases hk : (x.1 == k') = true
    · rw [if_pos hk] at h
      right
      rw [ttFind_cons, if_pos hk]
      exact h
    · rw [if_neg hk] at h
      rcases ih k' e' h with hl | hr
      · exact Or.inl hl
      · right
        rw [ttFind_cons, if_neg hk]
        exact hr

theorem ttFind_assign_some (t : TT) (k : TTKey) (e : TTEntry) (k' : TTKey)
    (e' : TTEntry) (h : ttFind (ttAssign t k e) k' = some e') :
    (k' = k ∧ e' = e) ∨ ttFind t k' = some e' := by
  unfold ttAssign at h
  split at h
  · exact ttFind_map_assign k e t k' e' h
  · exact ttFind_append_single k e t k' e' h

theorem ExactTable_store (t : TT) (k : TTKey) (e : TTEntry)
    (ht : ExactTable t) (hf : e.flag = TTFlag.EXACT)
    (hv : e.value = advancedEvaluation k.1 k.2) :
    ExactTable (ttStore t k e) := by
  unfold ttStore
  show ExactTable
    (if e.depth ≥ ((ttFind t k).getD TTEntry.dflt).depth then ttAssign t k e else t)
  split
  · intro k' e' h
    rcases ttFind_assign_some t k e k' e' h with ⟨rfl, rfl⟩ | hr
    · exact ⟨hf, hv⟩
    · exact ht k' e' hr
  · exact ht

theorem ab_true_zero_spec (s : SState) (p α β : Int) (ht : ExactTable s.table) :
    (alphabeta true 0 s p α β).1 = advancedEvaluation s.board p ∧
    (alphabeta true 0 s p α β).2.board = s.board ∧
    ExactTable (alphabeta true 0 s p α β).2.table := by
  simp only [alphabeta, snapshot, Nat.cast_zero]
  unfold ttLookup
  cases hf : ttFind s.table (s.board, p) with
  | none =>
    dsimp only
    refine ⟨rfl, rfl, ?_⟩
    refine ExactTable_store _ _ _ ht ?_ ?_ <;> rfl
  | some entry =>
    dsimp only
    obtain ⟨hfl, hvl⟩ := ht (s.board, p) entry hf
    by_cases hd : entry.depth < 0
    · rw [if_pos hd]
      refine ⟨rfl, rfl, ?_⟩
      refine ExactTable_store _ _ _ ht ?_ ?_ <;> rfl
    · rw [if_neg hd, hfl]
      exact ⟨hvl, rfl, ht⟩

theorem searchMoves01 (p β : Int) :
    ∀ (L : List Int) (st sf : SState) (bv bm α : Int),
      st.board = sf.board → ExactTable st.table →
      (searchMoves (fun s p a c => alphabeta true 0 s p a c) 0 p β L st bv bm α).1
        = (searchMoves (fun s p a c => alphabeta false 0 s p a c) 0 p β L sf bv bm α).1 ∧
      (searchMoves (fun s p a c => alphabeta true 0 s p a c) 0 p β L st bv bm α).2.1
        = (searchMoves (fun s p a c => alphabeta false 0 s p a c) 0 p β L sf bv bm α).2.1 := by
  intro L
  induction L with
  | nil =>
    intro st sf bv bm α hb ht
    exact ⟨rfl, rfl⟩
  | cons m rest ih =>
    intro st sf bv bm α hb ht
    simp only [searchMoves]
    rw [hb]
    have hct := ab_true_zero_spec
      { st with board := (makeMoveWithUndo sf.board m p).1 } (opponent p) (-β) (-α) ht
    have hvv : (alphabeta true 0
          { st with board := (makeMoveWithUndo sf.board m p).1 }
          (opponent p) (-β) (-α)).1
        = (alphabeta false 0
          { sf with board := (makeMoveWithUndo sf.board m p).1 }
          (opponent p) (-β) (-α)).1 := by
      rw [alphabeta_false_zero]
      exact hct.1
    rw [hvv]
    have hbd' : (alphabeta true 0
          { st with board := (makeMoveWithUndo sf.board m p).1 }
          (opponent p) (-β) (-α)).2.board
        = (alphabeta false 0
          { sf with board := (makeMoveWithUndo sf.board m p).1 }
          (opponent p) (-β) (-α)).2.board := by
      rw [alphabeta_false_zero]
      exact hct.2.1
    by_cases hA : -(alphabeta false 0
        { sf with board := (makeMoveWithUndo sf.board m p).1 }
        (opponent p) (-β) (-α)).1 > bv
    · simp only [if_pos hA]
      by_cases hB : -(alphabeta false 0
          { sf with board := (makeMoveWithUndo sf.board m p).1 }
          (opponent p) (-β) (-α)).1 > α
      · simp only [if_pos hB]
        by_cases hC : -(alphabeta false 0
            { sf with board := (makeMoveWithUndo sf.board m p).1 }
            (opponent p) (-β) (-α)).1 ≥ β
        · simp only [if_pos hC]
          constructor <;> trivial
        · simp only [if_neg hC]
          refine ih _ _ _ _ _ ?_ ?_
          · show unmakeMove _ _ p = unmakeMove _ _ p
            rw [hbd']
          · exact hct.2.2
      · simp only [if_neg hB]
        by_cases hD : α ≥ β
        · simp only [if_pos hD]
          constructor <;> trivial
        · simp only [if_neg hD]
          refine ih _ _ _ _ _ ?_ ?_
          · show unmakeMove _ _ p = unmakeMove _ _ p
            rw [hbd']
          · exact hct.2.2
    · simp only [if_neg hA]
      refine ih _ _ _ _ _ ?_ ?_
      · show unmakeMove _ _ p = unmakeMove _ _ p
        rw [hbd']
      · exact hct.2.2

theorem ExactTable_nil : ExactTable ([] : TT) := by
  intro k e h
  rw [ttFind_nil] at h
  cases h

theorem alphabeta_true_one_eq (b : Board) (h bm : Int → Int) (p α β : Int) :
    alphabeta true 1 (⟨b, [], h, bm⟩ : SState) p α β =
      if (interiorCells.filter fun i =>
          rd b i = EMPTY && legalMove b i p).isEmpty then
        if hasLegalMoves b (opponent p) then
          (-(alphabeta true 0 (⟨b, [], h, bm⟩ : SState) (opponent p) (-β) (-α)).1,
           { (alphabeta true 0 (⟨b, [], h, bm⟩ : SState) (opponent p) (-β) (-α)).2 with
             table := ttStore
               (alphabeta true 0 (⟨b, [], h, bm⟩ : SState) (opponent p) (-β) (-α)).2.table
               (b, p)
               ⟨-(alphabeta true 0 (⟨b, [], h, bm⟩ : SState) (opponent p) (-β) (-α)).1,
                 1, -1, .EXACT⟩ })
        else
          (terminalValue b p,
           (⟨b, ttStore [] (b, p) ⟨terminalValue b p, 1, -1, .EXACT⟩, h, bm⟩ : SState))
      else
        ((searchMoves (fun s p a c => alphabeta true 0 s p a c) 0 p β
            (orderMoves b h p (interiorCells.filter fun i =>
              rd b i = EMPTY && legalMove b i p))
            ⟨b, [], h, bm⟩ INT_MIN (-1) α).1,
         { (searchMoves (fun s p a c => alphabeta true 0 s p a c) 0 p β
             (orderMoves b h p (interiorCells.filter fun i =>
               rd b i = EMPTY && legalMove b i p))
             ⟨b, [], h, bm⟩ INT_MIN (-1) α).2.2 with
           table := ttStore
             (searchMoves (fun s p a c => alphabeta true 0 s p a c) 0 p β
               (orderMoves b h p (interiorCells.filter fun i =>
                 rd b i = EMPTY && legalMove b i p))
               ⟨b, [], h, bm⟩ INT_MIN (-1) α).2.2.table
             (b, p)
             ⟨(searchMoves (fun s p a c => alphabeta true 0 s p a c) 0 p β
                 (orderMoves b h p (interiorCells.filter fun i =>
                   rd b i = EMPTY && legalMove b i p))
                 ⟨b, [], h, bm⟩ INT_MIN (-1) α).1,
               1,
               (searchMoves (fun s p a c => alphabeta true 0 s p a c) 0 p β
                 (orderMoves b h p (interiorCells.filter fun i =>
                   rd b i = EMPTY && legalMove b i p))
                 ⟨b, [], h, bm⟩ INT_MIN (-1) α).2.1,
               storeFlag α β
                 (searchMoves (fun s p a c => alphabeta true 0 s p a c) 0 p β
                   (orderMoves b h p (interiorCells.filter fun i =>
                     rd b i = EMPTY && legalMove b i p))
                   ⟨b, [], h, bm⟩ INT_MIN (-1) α).1⟩ }) := rfl

/-- C4, amended: from the cleared transposition table `iterativeDeepening`
starts each move decision with, replacing the table by a no-op cannot
change the score at search depths 0 and 1 (all reusable entries are exact
static evaluations of their own key); the counterexample shows the scores
can differ from depth-preferred entry reuse once the depth reaches 5. -/
theorem C4_amended_shallow (b : Board) (p α β : Int) (d : Nat) (hd : d ≤ 1) :
    (alphabeta true d (mkState b) p α β).1
      = (alphabeta false d (mkState b) p α β).1 := by
  rcases d with _ | d
  · rfl
  · rcases d with _ | d
    · show (alphabeta true 1 (⟨b, [], fun _ => 0, fun _ => -1⟩ : SState) p α β).1
        = (alphabeta false (0 + 1)
            (⟨b, [], fun _ => 0, fun _ => -1⟩ : SState) p α β).1
      rw [alphabeta_true_one_eq, alphabeta_false_succ]
      rw [show ((⟨b, [], fun _ => 0, fun _ => -1⟩ : SState)).board = b from rfl,
        show ((⟨b, [], fun _ => 0, fun _ => -1⟩ : SState)).history
          = (fun _ => (0 : Int)) from rfl]
      by_cases hemp : (interiorCells.filter fun i =>
          rd b i = EMPTY && legalMove b i p).isEmpty
      · rw [if_pos hemp, if_pos hemp]
        by_cases hpass : hasLegalMoves b (opponent p)
        · rw [if_pos hpass, if_pos hpass]
          have ht := ab_true_zero_spec
            (⟨b, [], fun _ => 0, fun _ => -1⟩ : SState) (opponent p) (-β) (-α)
            ExactTable_nil
          show -(alphabeta true 0 (⟨b, [], fun _ => 0, fun _ => -1⟩ : SState)
              (opponent p) (-β) (-α)).1
            = -(alphabeta false 0 (⟨b, [], fun _ => 0, fun _ => -1⟩ : SState)
              (opponent p) (-β) (-α)).1
          rw [ht.1, alphabeta_false_zero]
        · rw [if_neg hpass, if_neg hpass]
      · rw [if_neg hemp, if_neg hemp]
        exact (searchMoves01 p β
          (orderMoves b (fun _ => 0) p (interiorCells.filter fun i =>
            rd b i = EMPTY && legalMove b i p))
          (⟨b, [], fun _ => 0, fun _ => -1⟩ : SState)
          (⟨b, [], fun _ => 0, fun _ => -1⟩ : SState)
          INT_MIN (-1) α rfl ExactTable_nil).1
    · omega

/-- Witness for the amended C4 at depth 1 from the initial position. -/
theorem C4_amended_shallow_witness :
    (1 : Nat) ≤ 1 ∧
    (alphabeta true 1 (mkState initBoard) BLACK (-1000000) 1000000).1
      = (alphabeta false 1 (mkState initBoard) BLACK (-1000000) 1000000).1 :=
  ⟨by decide, C4_amended_shallow initBoard BLACK (-1000000) 1000000 1 (by decide)⟩

theorem BMall_nil : BMall ([] : TT) := by
  intro k e h
  rw [ttFind_nil] at h
  cases h

theorem BMall_store (t : TT) (k : TTKey) (e : TTEntry) (ht : BMall t)
    (he : e.bestMove = -1 ∨ legalMove k.1 e.bestMove k.2 = true) :
    BMall (ttStore t k e) := by
  unfold ttStore
  show BMall
    (if e.depth ≥ ((ttFind t k).getD TTEntry.dflt).depth then ttAssign t k e else t)
  split
  · intro k' e' h
    rcases ttFind_assign_some t k e k' e' h with ⟨rfl, rfl⟩ | hr
    · exact he
    · exact ht k' e' hr
  · exact ht

theorem mem_ordered (ttm : Int) (moves : List Int) (b : Board)
    (hist : Int → Int) (p m : Int)
    (h : m ∈ (if ttm ≠ -1 ∧ ttm ∈ moves then
        ttm :: orderMoves b hist p (moves.erase ttm)
      else orderMoves b hist p moves)) : m ∈ moves := by
  split at h
  · rename_i hc
    rcases List.mem_cons.mp h with rfl | hm
    · exact hc.2
    · rw [orderMoves, mem_sortBy] at hm
      exact List.mem_of_mem_erase hm
  · rw [orderMoves, mem_sortBy] at h
    exact h

theorem interiorCells_range : ∀ i ∈ interiorCells, 0 ≤ i ∧ i < 100 := by decide

theorem firstLegal_legal (b : Board) (p : Int) (h : hasLegalMoves b p = true) :
    legalMove b (firstLegal b p) p = true := by
  unfold hasLegalMoves at h
  rw [List.any_eq_true] at h
  obtain ⟨i, hi, hpi⟩ := h
  rw [Bool.and_eq_true_iff] at hpi
  unfold firstLegal
  cases hf : allCells.find? (fun m => legalMove b m p) with
  | some m =>
    have := List.find?_some hf
    simpa using this
  | none =>
    exfalso
    have hrange := interiorCells_range i hi
    have hmem : i ∈ allCells := by
      unfold allCells
      rw [List.mem_map]
      exact ⟨i.toNat, by rw [List.mem_range]; omega, Int.toNat_of_nonneg hrange.1⟩
    have hnone := List.find?_eq_none.mp hf i hmem
    simp [hpi.2] at hnone

theorem upd_eq (f : Int → Int) (q v i : Int) : upd f q v i = if i = q then v else f i := rfl

theorem searchMoves_true_inv (n : Nat) (p β : Int)
    (hchild : ∀ (s' : SState) (a c : Int), BMall s'.table →
      (alphabeta true n s' (opponent p) a c).2.board = s'.board ∧
      BMall (alphabeta true n s' (opponent p) a c).2.table ∧
      (∀ i : Int, (n : Int) ≤ i →
        (alphabeta true n s' (opponent p) a c).2.bestm i = s'.bestm i ∨
        i = (n : Int))) :
    ∀ (L : List Int) (b : Board) (s : SState) (bv bm α : Int),
      s.board = b →
      (∀ m ∈ L, legalMove b m p = true) →
      BMall s.table →
      (bm = -1 ∨ legalMove b bm p = true) →
      (searchMoves (fun s p a c => alphabeta true n s p a c) n p β
          L s bv bm α).2.2.board = b ∧
      BMall (searchMoves (fun s p a c => alphabeta true n s p a c) n p β
          L s bv bm α).2.2.table ∧
      ((searchMoves (fun s p a c => alphabeta true n s p a c) n p β
          L s bv bm α).2.1 = -1 ∨
        legalMove b ((searchMoves (fun s p a c => alphabeta true n s p a c) n p β
          L s bv bm α).2.1) p = true) ∧
      (∀ i : Int, (n : Int) + 1 ≤ i →
        (searchMoves (fun s p a c => alphabeta true n s p a c) n p β
            L s bv bm α).2.2.bestm i = s.bestm i ∨
        (i = (n : Int) + 1 ∧
          ((searchMoves (fun s p a c => alphabeta true n s p a c) n p β
              L s bv bm α).2.2.bestm i = -1 ∨
            legalMove b ((searchMoves (fun s p a c => alphabeta true n s p a c) n p β
              L s bv bm α).2.2.bestm i) p = true))) := by
  intro L
  induction L with
  | nil =>
    intro b s bv bm α hsb hleg ht hbm
    exact ⟨hsb, ht, hbm, fun i _ => Or.inl rfl⟩
  | cons m rest ih =>
    intro b s bv bm α hsb hleg ht hbm
    have hlegm : legalMove b m p = true := hleg m (List.mem_cons_self m rest)
    have hlegr : ∀ m' ∈ rest, legalMove b m' p = true :=
      fun m' hm' => hleg m' (List.mem_cons_of_mem m hm')
    simp only [searchMoves]
    rw [hsb]
    set mk := makeMoveWithUndo b m p with hmk
    set r := alphabeta true n { s with board := mk.1 } (opponent p) (-β) (-α)
      with hrdef
    have hcs := hchild { s with board := mk.1 } (-β) (-α) ht
    rw [← hrdef] at hcs
    obtain ⟨hbd, hbt, hbestm⟩ := hcs
    have hrest : unmakeMove r.2.board mk.2 p = b := by
      rw [hbd]
      show unmakeMove mk.1 mk.2 p = b
      rw [hmk]
      exact unmake_roundtrip b m p hlegm
    by_cases hA : -r.1 > bv
    · rw [if_pos hA]
      by_cases hB : -r.1 > α
      · rw [if_pos hB]
        dsimp only
        by_cases hC : -r.1 ≥ β
        · rw [if_pos hC]
          dsimp only
          refine ⟨hrest, hbt, Or.inr hlegm, ?_⟩
          intro i hi
          by_cases hin : i = (n : Int) + 1
          · right
            refine ⟨hin, Or.inr ?_⟩
            show legalMove b (upd r.2.bestm ((n : Int) + 1) m i) p = true
            rw [upd_eq, if_pos hin]
            exact hlegm
          · left
            show upd r.2.bestm ((n : Int) + 1) m i = s.bestm i
            rw [upd_eq, if_neg hin]
            rcases hbestm i (by omega) with h' | h'
            · exact h'
            · exfalso
              omega
        · rw [if_neg hC]
          obtain ⟨ih1, ih2, ih3, ih4⟩ := ih b
            ⟨unmakeMove r.2.board mk.2 p, r.2.table, r.2.history,
              upd r.2.bestm ((n : Int) + 1) m⟩
            (-r.1) m (-r.1) hrest hlegr hbt (Or.inr hlegm)
          refine ⟨ih1, ih2, ih3, ?_⟩
          intro i hi
          rcases ih4 i hi with heq | ⟨hieq, hok⟩
          · by_cases hin : i = (n : Int) + 1
            · right
              refine ⟨hin, Or.inr ?_⟩
              rw [heq]
              show legalMove b (upd r.2.bestm ((n : Int) + 1) m i) p = true
              rw [upd_eq, if_pos hin]
              exact hlegm
            · left
              rw [heq]
              show upd r.2.bestm ((n : Int) + 1) m i = s.bestm i
              rw [upd_eq, if_neg hin]
              rcases hbestm i (by omega) with h' | h'
              · exact h'
              · exfalso
                omega
          · exact Or.inr ⟨hieq, hok⟩
      · rw [if_neg hB]
        dsimp only
        by_cases hD : α ≥ β
        · rw [if_pos hD]
          dsimp only
          refine ⟨hrest, hbt, Or.inr hlegm, ?_⟩
          intro i hi
          left
          show r.2.bestm i = s.bestm i
          rcases hbestm i (by omega) with h' | h'
          · exact h'
          · exfalso
            omega
        · rw [if_neg hD]
          obtain ⟨ih1, ih2, ih3, ih4⟩ := ih b
            ⟨unmakeMove r.2.board mk.2 p, r.2.table, r.2.history, r.2.bestm⟩
            (-r.1) m α hrest hlegr hbt (Or.inr hlegm)
          refine ⟨ih1, ih2, ih3, ?_⟩
          intro i hi
          rcases ih4 i hi with heq | ⟨hieq, hok⟩
          · left
            rw [heq]
            show r.2.bestm i = s.bestm i
            rcases hbestm i (by omega) with h' | h'
            · exact h'
            · exfalso
              omega
          · exact Or.inr ⟨hieq, hok⟩
    · rw [if_neg hA]
      obtain ⟨ih1, ih2, ih3, ih4⟩ := ih b
        ⟨unmakeMove r.2.board mk.2 p, r.2.table, r.2.history, r.2.bestm⟩
        bv bm α hrest hlegr hbt hbm
      refine ⟨ih1, ih2, ih3, ?_⟩
      intro i hi
      rcases ih4 i hi with heq | ⟨hieq, hok⟩
      · left
        rw [heq]
        show r.2.bestm i = s.bestm i
        rcases hbestm i (by omega) with h' | h'
        · exact h'
        · exfalso
          omega
      · exact Or.inr ⟨hieq, hok⟩

theorem mem_moves_legal (b : Board) (p m : Int)
    (hm : m ∈ interiorCells.filter fun i => rd b i = EMPTY && legalMove b i p) :
    legalMove b m p = true := by
  have h := (List.mem_filter.mp hm).2
  rw [Bool.and_eq_true_iff] at h
  exact h.2


theorem alphabeta_true_inv :
    ∀ (d : Nat) (s : SState) (p α β : Int), BMall s.table →
      (alphabeta true d s p α β).2.board = s.board ∧
      BMall (alphabeta true d s p α β).2.table ∧
      (∀ i : Int, ((d : Nat) : Int) ≤ i →
        (alphabeta true d s p α β).2.bestm i = s.bestm i ∨
        (i = ((d : Nat) : Int) ∧
          ((alphabeta true d s p α β).2.bestm i = -1 ∨
            legalMove s.board ((alphabeta true d s p α β).2.bestm i) p = true))) := by
  intro d
  induction d with
  | zero =>
    intro s p α β ht
    simp only [alphabeta, snapshot, Nat.cast_zero]
    unfold ttLookup
    cases hf : ttFind s.table (s.board, p) with
    | none =>
      dsimp only
      exact ⟨rfl, BMall_store _ _ _ ht (Or.inl rfl), fun i _ => Or.inl rfl⟩
    | some entry =>
      dsimp only
      by_cases hd0 : entry.depth < 0
      · rw [if_pos hd0]
        exact ⟨rfl, BMall_store _ _ _ ht (Or.inl rfl), fun i _ => Or.inl rfl⟩
      · rw [if_neg hd0]
        cases hfl : entry.flag with
        | EXACT =>
          exact ⟨rfl, ht, fun i _ => Or.inl rfl⟩
        | LOWER_BOUND =>
          by_cases hv : entry.value ≥ β
          · rw [if_pos hv]
            exact ⟨rfl, ht, fun i _ => Or.inl rfl⟩
          · rw [if_neg hv]
            exact ⟨rfl, BMall_store _ _ _ ht (Or.inl rfl), fun i _ => Or.inl rfl⟩
        | UPPER_BOUND =>
          by_cases hv : entry.value ≤ α
          · rw [if_pos hv]
            exact ⟨rfl, ht, fun i _ => Or.inl rfl⟩
          · rw [if_neg hv]
            exact ⟨rfl, BMall_store _ _ _ ht (Or.inl rfl), fun i _ => Or.inl rfl⟩
  | succ n ihd =>
    intro s p α β ht
    simp only [alphabeta, snapshot, Nat.succ_eq_add_one, Nat.cast_add, Nat.cast_one,
      if_true]
    unfold ttLookup
    cases hf : ttFind s.table (s.board, p) with
    | none =>
      dsimp only
      by_cases hemp : (interiorCells.filter fun i =>
          rd s.board i = EMPTY && legalMove s.board i p).isEmpty
      · rw [if_pos hemp]
        by_cases hpass : hasLegalMoves s.board (opponent p)
        · rw [if_pos hpass]
          obtain ⟨c1, c2, c3⟩ := ihd s (opponent p) (-β) (-α) ht
          refine ⟨c1, BMall_store _ _ _ c2 (Or.inl rfl), ?_⟩
          intro i hi
          rcases c3 i (by omega) with h7 | h7
          · exact Or.inl h7
          · exfalso
            omega
        · rw [if_neg hpass]
          exact ⟨rfl, BMall_store _ _ _ ht (Or.inl rfl), fun i _ => Or.inl rfl⟩
      · rw [if_neg hemp]
        have hch : ∀ (s2 : SState) (a c : Int), BMall s2.table →
            (alphabeta true n s2 (opponent p) a c).2.board = s2.board ∧
            BMall (alphabeta true n s2 (opponent p) a c).2.table ∧
            (∀ i : Int, (n : Int) ≤ i →
              (alphabeta true n s2 (opponent p) a c).2.bestm i = s2.bestm i ∨
              i = (n : Int)) :=
          fun s2 a c ht2 =>
            ⟨(ihd s2 (opponent p) a c ht2).1, (ihd s2 (opponent p) a c ht2).2.1,
             fun i hi => ((ihd s2 (opponent p) a c ht2).2.2 i hi).imp_right And.left⟩
        have hlegord : ∀ m ∈ (if (-1 : Int) ≠ -1 ∧
              (-1 : Int) ∈ interiorCells.filter fun i =>
                rd s.board i = EMPTY && legalMove s.board i p then
              (-1 : Int) :: orderMoves s.board s.history p
                ((interiorCells.filter fun i =>
                  rd s.board i = EMPTY && legalMove s.board i p).erase (-1 : Int))
            else orderMoves s.board s.history p (interiorCells.filter fun i =>
              rd s.board i = EMPTY && legalMove s.board i p)),
            legalMove s.board m p = true := by
          intro m hm
          exact mem_moves_legal s.board p m (mem_ordered (-1 : Int) _ s.board s.history p m hm)
        obtain ⟨l1, l2, l3, l4⟩ := searchMoves_true_inv n p β hch
          (if (-1 : Int) ≠ -1 ∧
              (-1 : Int) ∈ interiorCells.filter fun i =>
                rd s.board i = EMPTY && legalMove s.board i p then
            (-1 : Int) :: orderMoves s.board s.history p
              ((interiorCells.filter fun i =>
                rd s.board i = EMPTY && legalMove s.board i p).erase (-1 : Int))
          else orderMoves s.board s.history p (interiorCells.filter fun i =>
            rd s.board i = EMPTY && legalMove s.board i p))
          s.board s INT_MIN (-1) α rfl hlegord ht (Or.inl rfl)
        refine ⟨l1, BMall_store _ _ _ l2 l3, ?_⟩
        intro i hi
        rcases l4 i (by omega) with h7 | ⟨h8, h9⟩
        · exact Or.inl h7
        · exact Or.inr ⟨by omega, h9⟩
    | some entry =>
      dsimp only
      by_cases hdep : entry.depth < (n : Int) + 1
      · rw [if_pos hdep]
        by_cases hemp : (interiorCells.filter fun i =>
            rd s.board i = EMPTY && legalMove s.board i p).isEmpty
        · rw [if_pos hemp]
          by_cases hpass : hasLegalMoves s.board (opponent p)
          · rw [if_pos hpass]
            obtain ⟨c1, c2, c3⟩ := ihd s (opponent p) (-β) (-α) ht
            refine ⟨c1, BMall_store _ _ _ c2 (Or.inl rfl), ?_⟩
            intro i hi
            rcases c3 i (by omega) with h7 | h7
            · exact Or.inl h7
            · exfalso
              omega
          · rw [if_neg hpass]
            exact ⟨rfl, BMall_store _ _ _ ht (Or.inl rfl), fun i _ => Or.inl rfl⟩
        · rw [if_neg hemp]
          have hch : ∀ (s2 : SState) (a c : Int), BMall s2.table →
              (alphabeta true n s2 (opponent p) a c).2.board = s2.board ∧
              BMall (alphabeta true n s2 (opponent p) a c).2.table ∧
              (∀ i : Int, (n : Int) ≤ i →
                (alphabeta true n s2 (opponent p) a c).2.bestm i = s2.bestm i ∨
                i = (n : Int)) :=
            fun s2 a c ht2 =>
              ⟨(ihd s2 (opponent p) a c ht2).1, (ihd s2 (opponent p) a c ht2).2.1,
               fun i hi => ((ihd s2 (opponent p) a c ht2).2.2 i hi).imp_right And.left⟩
          have hlegord : ∀ m ∈ (if (-1 : Int) ≠ -1 ∧
                (-1 : Int) ∈ interiorCells.filter fun i =>
                  rd s.board i = EMPTY && legalMove s.board i p then
                (-1 : Int) :: orderMoves s.board s.history p
                  ((interiorCells.filter fun i =>
                    rd s.board i = EMPTY && legalMove s.board i p).erase (-1 : Int))
              else orderMoves s.board s.history p (interiorCells.filter fun i =>
                rd s.board i = EMPTY && legalMove s.board i p)),
              legalMove s.board m p = true := by
            intro m hm
            exact mem_moves_legal s.board p m (mem_ordered (-1 : Int) _ s.board s.history p m hm)
          obtain ⟨l1, l2, l3, l4⟩ := searchMoves_true_inv n p β hch
            (if (-1 : Int) ≠ -1 ∧
                (-1 : Int) ∈ interiorCells.filter fun i =>
                  rd s.board i = EMPTY && legalMove s.board i p then
              (-1 : Int) :: orderMoves s.board s.history p
                ((interiorCells.filter fun i =>
                  rd s.board i = EMPTY && legalMove s.board i p).erase (-1 : Int))
            else orderMoves s.board s.history p (interiorCells.filter fun i =>
              rd s.board i = EMPTY && legalMove s.board i p))
            s.board s INT_MIN (-1) α rfl hlegord ht (Or.inl rfl)
          refine ⟨l1, BMall_store _ _ _ l2 l3, ?_⟩
          intro i hi
          rcases l4 i (by omega) with h7 | ⟨h8, h9⟩
          · exact Or.inl h7
          · exact Or.inr ⟨by omega, h9⟩
      · rw [if_neg hdep]
        cases hfl : entry.flag with
        | EXACT =>
          rw [if_pos (show (n + 1 : Nat) ≠ 0 by omega)]
          exact ⟨rfl, ht, fun i hi => by
            by_cases hin : i = (n : Int) + 1
            · right
              refine ⟨by omega, ?_⟩
              show upd s.bestm ((n : Int) + 1) entry.bestMove i = -1 ∨
                legalMove s.board (upd s.bestm ((n : Int) + 1) entry.bestMove i) p = true
              rw [upd_eq, if_pos hin]
              exact ht (s.board, p) entry hf
            · left
              show upd s.bestm ((n : Int) + 1) entry.bestMove i = s.bestm i
              rw [upd_eq, if_neg hin]⟩
        | LOWER_BOUND =>
          by_cases hv : entry.value ≥ β
          · rw [if_pos hv, if_pos (show (n + 1 : Nat) ≠ 0 by omega)]
            exact ⟨rfl, ht, fun i hi => by
              by_cases hin : i = (n : Int) + 1
              · right
                refine ⟨by omega, ?_⟩
                show upd s.bestm ((n : Int) + 1) entry.bestMove i = -1 ∨
                  legalMove s.board (upd s.bestm ((n : Int) + 1) entry.bestMove i) p = true
                rw [upd_eq, if_pos hin]
                exact ht (s.board, p) entry hf
              · left
                show upd s.bestm ((n : Int) + 1) entry.bestMove i = s.bestm i
                rw [upd_eq, if_neg hin]⟩
          · rw [if_neg hv]
            by_cases hemp : (interiorCells.filter fun i =>
                rd s.board i = EMPTY && legalMove s.board i p).isEmpty
            · rw [if_pos hemp]
              by_cases hpass : hasLegalMoves s.board (opponent p)
              · rw [if_pos hpass]
                obtain ⟨c1, c2, c3⟩ := ihd s (opponent p) (-β) (-α) ht
                refine ⟨c1, BMall_store _ _ _ c2 (Or.inl rfl), ?_⟩
                intro i hi
                rcases c3 i (by omega) with h7 | h7
                · exact Or.inl h7
                · exfalso
                  omega
              · rw [if_neg hpass]
                exact ⟨rfl, BMall_store _ _ _ ht (Or.inl rfl), fun i _ => Or.inl rfl⟩
            · rw [if_neg hemp]
              have hch : ∀ (s2 : SState) (a c : Int), BMall s2.table →
                  (alphabeta true n s2 (opponent p) a c).2.board = s2.board ∧
                  BMall (alphabeta true n s2 (opponent p) a c).2.table ∧
                  (∀ i : Int, (n : Int) ≤ i →
                    (alphabeta true n s2 (opponent p) a c).2.bestm i = s2.bestm i ∨
                    i = (n : Int)) :=
                fun s2 a c ht2 =>
                  ⟨(ihd s2 (opponent p) a c ht2).1, (ihd s2 (opponent p) a c ht2).2.1,
                   fun i hi => ((ihd s2 (opponent p) a c ht2).2.2 i hi).imp_right And.left⟩
              have hlegord : ∀ m ∈ (if entry.bestMove ≠ -1 ∧
                    entry.bestMove ∈ interiorCells.filter fun i =>
                      rd s.board i = EMPTY && legalMove s.board i p then
                    entry.bestMove :: orderMoves s.board s.history p
                      ((interiorCells.filter fun i =>
                        rd s.board i = EMPTY && legalMove s.board i p).erase entry.bestMove)
                  else orderMoves s.board s.history p (interiorCells.filter fun i =>
                    rd s.board i = EMPTY && legalMove s.board i p)),
                  legalMove s.board m p = true := by
                intro m hm
                exact mem_moves_legal s.board p m (mem_ordered entry.bestMove _ s.board s.history p m hm)
              obtain ⟨l1, l2, l3, l4⟩ := searchMoves_true_inv n p β hch
                (if entry.bestMove ≠ -1 ∧
                    entry.bestMove ∈ interiorCells.filter fun i =>
                      rd s.board i = EMPTY && legalMove s.board i p then
                  entry.bestMove :: orderMoves s.board s.history p
                    ((interiorCells.filter fun i =>
                      rd s.board i = EMPTY && legalMove s.board i p).erase entry.bestMove)
                else orderMoves s.board s.history p (interiorCells.filter fun i =>
                  rd s.board i = EMPTY && legalMove s.board i p))
                s.board s INT_MIN (-1) α rfl hlegord ht (Or.inl rfl)
              refine ⟨l1, BMall_store _ _ _ l2 l3, ?_⟩
              intro i hi
              rcases l4 i (by omega) with h7 | ⟨h8, h9⟩
              · exact Or.inl h7
              · exact Or.inr ⟨by omega, h9⟩
        | UPPER_BOUND =>
          by_cases hv : entry.value ≤ α
          · rw [if_pos hv, if_pos (show (n + 1 : Nat) ≠ 0 by omega)]
            exact ⟨rfl, ht, fun i hi => by
              by_cases hin : i = (n : Int) + 1
              · right
                refine ⟨by omega, ?_⟩
                show upd s.bestm ((n : Int) + 1) entry.bestMove i = -1 ∨
                  legalMove s.board (upd s.bestm ((n : Int) + 1) entry.bestMove i) p = true
                rw [upd_eq, if_pos hin]
                exact ht (s.board, p) entry hf
              · left
                show upd s.bestm ((n : Int) + 1) entry.bestMove i = s.bestm i
                rw [upd_eq, if_neg hin]⟩
          · rw [if_neg hv]
            by_cases hemp : (interiorCells.filter fun i =>
                rd s.board i = EMPTY && legalMove s.board i p).isEmpty
            · rw [if_pos hemp]
              by_cases hpass : hasLegalMoves s.board (opponent p)
              · rw [if_pos hpass]
                obtain ⟨c1, c2, c3⟩ := ihd s (opponent p) (-β) (-α) ht
                refine ⟨c1, BMall_store _ _ _ c2 (Or.inl rfl), ?_⟩
                intro i hi
                rcases c3 i (by omega) with h7 | h7
                · exact Or.inl h7
                · exfalso
                  omega
              · rw [if_neg hpass]
                exact ⟨rfl, BMall_store _ _ _ ht (Or.inl rfl), fun i _ => Or.inl rfl⟩
            · rw [if_neg hemp]
              have hch : ∀ (s2 : SState) (a c : Int), BMall s2.table →
                  (alphabeta true n s2 (opponent p) a c).2.board = s2.board ∧
                  BMall (alphabeta true n s2 (opponent p) a c).2.table ∧
                  (∀ i : Int, (n : Int) ≤ i →
                    (alphabeta true n s2 (opponent p) a c).2.bestm i = s2.bestm i ∨
                    i = (n : Int)) :=
                fun s2 a c ht2 =>
                  ⟨(ihd s2 (opponent p) a c ht2).1, (ihd s2 (opponent p) a c ht2).2.1,
                   fun i hi => ((ihd s2 (opponent p) a c ht2).2.2 i hi).imp_right And.left⟩
              have hlegord : ∀ m ∈ (if entry.bestMove ≠ -1 ∧
                    entry.bestMove ∈ interiorCells.filter fun i =>
                      rd s.board i = EMPTY && legalMove s.board i p then
                    entry.bestMove :: orderMoves s.board s.history p
                      ((interiorCells.filter fun i =>
                        rd s.board i = EMPTY && legalMove s.board i p).erase entry.bestMove)
                  else orderMoves s.board s.history p (interiorCells.filter fun i =>
                    rd s.board i = EMPTY && legalMove s.board i p)),
                  legalMove s.board m p = true := by
                intro m hm
                exact mem_moves_legal s.board p m (mem_ordered entry.bestMove _ s.board s.history p m hm)
              obtain ⟨l1, l2, l3, l4⟩ := searchMoves_true_inv n p β hch
                (if entry.bestMove ≠ -1 ∧
                    entry.bestMove ∈ interiorCells.filter fun i =>
                      rd s.board i = EMPTY && legalMove s.board i p then
                  entry.bestMove :: orderMoves s.board s.history p
                    ((interiorCells.filter fun i =>
                      rd s.board i = EMPTY && legalMove s.board i p).erase entry.bestMove)
                else orderMoves s.board s.history p (interiorCells.filter fun i =>
                  rd s.board i = EMPTY && legalMove s.board i p))
                s.board s INT_MIN (-1) α rfl hlegord ht (Or.inl rfl)
              refine ⟨l1, BMall_store _ _ _ l2 l3, ?_⟩
              intro i hi
              rcases l4 i (by omega) with h7 | ⟨h8, h9⟩
              · exact Or.inl h7
              · exact Or.inr ⟨by omega, h9⟩

theorem aspiration_inv (player : Int) (depth : Nat) :
    ∀ (fuel : Nat) (s : SState) (α β δ : Int), BMall s.table →
      (aspiration player depth fuel s α β δ).2.board = s.board ∧
      BMall (aspiration player depth fuel s α β δ).2.table ∧
      ((aspiration player depth fuel s α β δ).2.bestm ((depth : Nat) : Int) = -1 ∨
        legalMove s.board
          ((aspiration player depth fuel s α β δ).2.bestm ((depth : Nat) : Int))
          player = true) := by
  intro fuel
  induction fuel with
  | zero =>
    intro s α β δ ht
    simp only [aspiration]
    obtain ⟨h1, h2, h3⟩ :=
      alphabeta_true_inv depth { s with bestm := fun _ => -1 } player α β ht
    refine ⟨h1, h2, ?_⟩
    rcases h3 ((depth : Nat) : Int) (le_refl _) with h4 | ⟨-, h4⟩
    · exact Or.inl h4
    · exact h4
  | succ f ihf =>
    intro s α β δ ht
    simp only [aspiration]
    obtain ⟨h1, h2, h3⟩ :=
      alphabeta_true_inv depth { s with bestm := fun _ => -1 } player α β ht
    by_cases hlow : (alphabeta true depth { s with bestm := fun _ => -1 }
        player α β).1 ≤ α
    · rw [if_pos hlow]
      obtain ⟨a1, a2, a3⟩ := ihf
        (alphabeta true depth { s with bestm := fun _ => -1 } player α β).2
        (α - δ) β (δ * 2) h2
      refine ⟨?_, a2, ?_⟩
      · rw [a1]
        exact h1
      · rcases a3 with a4 | a4
        · exact Or.inl a4
        · right
          rw [h1] at a4
          exact a4
    · rw [if_neg hlow]
      by_cases hhigh : (alphabeta true depth { s with bestm := fun _ => -1 }
          player α β).1 ≥ β
      · rw [if_pos hhigh]
        obtain ⟨a1, a2, a3⟩ := ihf
          (alphabeta true depth { s with bestm := fun _ => -1 } player α β).2
          α (β + δ) (δ * 2) h2
        refine ⟨?_, a2, ?_⟩
        · rw [a1]
          exact h1
        · rcases a3 with a4 | a4
          · exact Or.inl a4
          · right
            rw [h1] at a4
            exact a4
      · rw [if_neg hhigh]
        refine ⟨h1, h2, ?_⟩
        rcases h3 ((depth : Nat) : Int) (le_refl _) with h4 | ⟨-, h4⟩
        · exact Or.inl h4
        · exact h4

theorem idStep_inv (player : Int) :
    ∀ (ds : List Nat) (s : SState) (bm ls : Int),
      BMall s.table →
      (bm = -1 ∨ legalMove s.board bm player = true) →
      (idStep player ds s bm ls).2.board = s.board ∧
      ((idStep player ds s bm ls).1 = -1 ∨
        legalMove s.board ((idStep player ds s bm ls).1) player = true) := by
  intro ds
  induction ds with
  | nil =>
    intro s bm ls ht hbm
    exact ⟨rfl, hbm⟩
  | cons d rest ih =>
    intro s bm ls ht hbm
    simp only [idStep]
    obtain ⟨a1, a2, a3⟩ :=
      aspiration_inv player d aspirationFuel s (ls - 64) (ls + 64) 64 ht
    have hbm2 : (if (aspiration player d aspirationFuel s (ls - 64) (ls + 64)
          64).2.bestm (d : Int) ≠ -1 then
        (aspiration player d aspirationFuel s (ls - 64) (ls + 64) 64).2.bestm (d : Int)
      else bm) = -1 ∨
        legalMove (aspiration player d aspirationFuel s (ls - 64) (ls + 64) 64).2.board
          (if (aspiration player d aspirationFuel s (ls - 64) (ls + 64)
              64).2.bestm (d : Int) ≠ -1 then
            (aspiration player d aspirationFuel s (ls - 64) (ls + 64) 64).2.bestm
              (d : Int)
          else bm) player = true := by
      split
      · rename_i hne
        rcases a3 with h4 | h4
        · exact absurd h4 hne
        · right
          rw [a1]
          exact h4
      · rcases hbm with h4 | h4
        · exact Or.inl h4
        · right
          rw [a1]
          exact h4
    obtain ⟨i1, i2⟩ := ih
      (aspiration player d aspirationFuel s (ls - 64) (ls + 64) 64).2 _ _ a2 hbm2
    refine ⟨?_, ?_⟩
    · rw [i1]
      exact a1
    · rcases i2 with h4 | h4
      · exact Or.inl h4
      · right
        rw [a1] at h4
        exact h4

/-- C8: whenever the side to move has a legal move, the move the engine
branch of `run` applies — the result of `iterativeDeepening` when it is not
`-1`, otherwise the first legal move found by the fallback scan — is a
legal move for that side; the engine never ends its turn with no move. -/
theorem C8_engine_legal (b : Board) (hist : Int → Int) (player : Int)
    (maxDepth : Nat) (h : hasLegalMoves b player = true) :
    legalMove b (engineSelect b hist player maxDepth) player = true := by
  unfold engineSelect iterativeDeepening
  obtain ⟨-, hmv⟩ := idStep_inv player (List.range' 1 maxDepth)
    ⟨b, [], hist, fun _ => -1⟩ (-1) 0 BMall_nil (Or.inl rfl)
  by_cases hm : (idStep player (List.range' 1 maxDepth)
      ⟨b, [], hist, fun _ => -1⟩ (-1) 0).1 ≠ -1
  · rw [if_pos hm]
    rcases hmv with h1 | h1
    · exact absurd h1 hm
    · exact h1
  · rw [if_neg hm]
    exact firstLegal_legal b player h

/-- Witness for C8 at the initial position with Black to move (maximum
depth 0, so the depth loop is empty and the fallback path is exercised). -/
theorem C8_engine_legal_witness :
    hasLegalMoves initBoard BLACK = true ∧
    legalMove initBoard (engineSelect initBoard (fun _ => 0) BLACK 0) BLACK
      = true :=
  ⟨by decide, C8_engine_legal initBoard (fun _ => 0) BLACK 0 (by decide)⟩

end Othello
